import Mathlib

/-!
Shallow embedding of the subcircuit-matching core of the circuit simplifier:
the `ThreeColoring` constructor (src/simplification/utils/three_coloring.hpp)
and the `CircuitDB::read_db` database loader
(src/simplification/utils/circuits_db.hpp), together with theorems settling
the specification claims about them.

Machine integers (`size_t`, `GateId`, `ColorId`) are modelled as `Nat`; the
`SIZE_MAX` sentinel stored in `twoColoring.gateColor` and `negationUsers`
is modelled as `Option _` with `none` standing for the sentinel.  The
bounds-checked accesses `std::vector::at` / exceptional exits are modelled in
an `Except CErr` monad: `.error .range` models an `std::out_of_range` throw
and `.error (.nonBinary g)` models the `std::exit(-1)` taken when a gate with
more than two operands is met.
-/

namespace Csat

abbrev GateId := Nat
abbrev ColorId := Nat

/-- Gate types of the circuit representation (src/common/csat_types.hpp as
described by the data model: the closed set of operator tags).  Only `NOT`
is inspected by the code embedded here. -/
inductive GateType where
  | INPUT | NOT | AND | OR | NAND | NOR | XOR | XNOR | BUFF | IFF | MUX
  | CONST_FALSE | CONST_TRUE
deriving DecidableEq, Repr

/-- Error outcomes of the `ThreeColoring` constructor: `range` models an
`std::out_of_range` exception from a checked `.at` access, `nonBinary g`
models the diagnostic + `std::exit(-1)` naming gate `g` (three_coloring.hpp
lines 142-147). -/
inductive CErr where
  | range
  | nonBinary (g : GateId)
deriving DecidableEq, Repr

instance {ε α : Type} [DecidableEq ε] [DecidableEq α] : DecidableEq (Except ε α) :=
  fun x y =>
    match x, y with
    | .error e1, .error e2 =>
      if h : e1 = e2 then .isTrue (by rw [h])
      else .isFalse (by intro hh; cases hh; exact h rfl)
    | .ok a1, .ok a2 =>
      if h : a1 = a2 then .isTrue (by rw [h])
      else .isFalse (by intro hh; cases hh; exact h rfl)
    | .error _, .ok _ => .isFalse (by intro hh; cases hh)
    | .ok _, .error _ => .isFalse (by intro hh; cases hh)

/-- Checked vector access: models `v.at(i)` on `std::vector`. -/
def listAt {α : Type} (l : List α) (i : Nat) : Except CErr α :=
  match l[i]? with
  | some a => .ok a
  | none => .error .range

/-- Sequencing of checked operations: propagate the error, else continue
(the normal control flow between consecutive statements that may throw). -/
def ebind {α β : Type} (x : Except CErr α) (f : α → Except CErr β) : Except CErr β :=
  match x with
  | .error e => .error e
  | .ok a => f a

theorem ebind_ok {α β : Type} (a : α) (f : α → Except CErr β) :
    ebind (.ok a) f = f a := rfl

theorem ebind_error {α β : Type} (e : CErr) (f : α → Except CErr β) :
    ebind (.error e) f = .error e := rfl

/-- Case split on an optional value (a `SIZE_MAX` check in the C++). -/
def optCase {α β : Type} (r : Option α) (f : α → β) (z : β) : β :=
  match r with
  | some c => f c
  | none => z

theorem optCase_some {α β : Type} (c : α) (f : α → β) (z : β) :
    optCase (some c) f z = f c := rfl

theorem optCase_none {α β : Type} (f : α → β) (z : β) :
    optCase (none : Option α) f z = z := rfl

/-- Lookup in an association list modelling `std::map` (first match wins;
`mapAssign` keeps keys unique). -/
def mapFind? {κ ν : Type} [DecidableEq κ] (m : List (κ × ν)) (k : κ) : Option ν :=
  match m with
  | [] => none
  | (k', v') :: rest => if k' = k then some v' else mapFind? rest k

/-- Insert-or-assign, modelling `std::map::operator[] = v`: replaces the
binding of `k` when present, appends a new binding otherwise. -/
def mapAssign {κ ν : Type} [DecidableEq κ] (m : List (κ × ν)) (k : κ) (v : ν) :
    List (κ × ν) :=
  match m with
  | [] => [(k, v)]
  | (k', v') :: rest => if k' = k then (k, v) :: rest else (k', v') :: mapAssign rest k v

/-- Modelled from the spec: `TwoColor` of two_coloring.hpp, which is not among
the provided sources.  Per the data model it is an unordered pair of parent
gate ids stored sorted ascending; `ThreeColoring` only reads `first_parent`,
`second_parent` and `hasParent`, so the painted-gates list is omitted. -/
structure TwoColor where
  first_parent : GateId
  second_parent : GateId
deriving DecidableEq, Repr

/-- Modelled from the spec: membership test used at three_coloring.hpp lines
337/346 (`twoColoring.colors.at(c).hasParent(p)`), by analogy with
`ThreeColor::hasParent`. -/
def TwoColor.hasParent (t : TwoColor) (g : GateId) : Bool :=
  t.first_parent == g || t.second_parent == g

/-- Modelled from the spec: the part of `TwoColoring` (two_coloring.hpp, not
among the provided sources) that the `ThreeColoring` constructor reads: the
dense table of `TwoColor` records and the per-gate color (`none` models the
`SIZE_MAX` sentinel meaning "no color"). -/
structure TwoColoring where
  colors : List TwoColor
  gateColor : List (Option ColorId)
deriving DecidableEq, Repr

/-- The circuit interface consumed by the constructor (`ICircuit`):
`getNumberOfGates`, `getGateOperands`, `getGateType`. -/
structure Circuit where
  size : Nat
  operands : GateId → List GateId
  gateType : GateId → GateType

/-- A `ThreeColor`: a triple of parent ids kept in ascending order plus the
gates painted with it (three_coloring.hpp lines 21-70). -/
structure ThreeColor where
  first_parent : GateId
  second_parent : GateId
  third_parent : GateId
  gates : List GateId
deriving DecidableEq, Repr

/-- `ThreeColor::sortedParents`: the three ids sorted ascending
(`std::sort` on a 3-element vector). -/
def ThreeColor.sortedParents (a b c : GateId) : List GateId :=
  List.insertionSort (· ≤ ·) [a, b, c]

/-- The `ThreeColor` constructor: sorts the parents and stores them in order,
with an empty gates list. -/
def ThreeColor.mkSorted (a b c : GateId) : ThreeColor :=
  let ps := ThreeColor.sortedParents a b c
  { first_parent := ps.getD 0 0
    second_parent := ps.getD 1 0
    third_parent := ps.getD 2 0
    gates := [] }

/-- `ThreeColor::hasParent`. -/
def ThreeColor.hasParent (t : ThreeColor) (g : GateId) : Bool :=
  t.first_parent == g || t.second_parent == g || t.third_parent == g

/-- The canonical map key of a color: its parents sorted ascending.  For
colors created by `ThreeColor.mkSorted` this equals `[first, second, third]`. -/
def parentsKey (t : ThreeColor) : List GateId :=
  ThreeColor.sortedParents t.first_parent t.second_parent t.third_parent

/-- The mutable state of the `ThreeColoring` constructor: its four public
containers and the running `next_color_id_`. -/
structure ThreeColoring where
  colors : List ThreeColor
  gateColors : List (List ColorId)
  parentsToColor : List (List GateId × ColorId)
  negationUsers : List (Option GateId)
  next_color_id : Nat
deriving DecidableEq, Repr

/-- The gate-color list of gate `g` (reads of `gateColors` entries). -/
def gcAt (s : ThreeColoring) (g : GateId) : List ColorId :=
  s.gateColors.getD g []

/-- `ThreeColoring::addColor` (lines 91-97): append a new color over the
given parents and record its sorted parents in `parentsToColor`.  The C++
returns the fresh id, which every call site ignores (they re-read the map). -/
def addColor (s : ThreeColoring) (p1 p2 p3 : GateId) : ThreeColoring :=
  { s with
    colors := s.colors ++ [ThreeColor.mkSorted p1 p2 p3]
    parentsToColor :=
      mapAssign s.parentsToColor (ThreeColor.sortedParents p1 p2 p3) s.next_color_id
    next_color_id := s.next_color_id + 1 }

/-- `ThreeColoring::paintGate` (lines 99-103): `colors.at(colorId).addGate(g)`
then `gateColors.at(g).push_back(colorId)`, both bounds-checked. -/
def paintGate (s : ThreeColoring) (g : GateId) (c : ColorId) : Except CErr ThreeColoring :=
  ebind (listAt s.colors c) fun col =>
  ebind (listAt s.gateColors g) fun cs =>
  .ok { s with
        colors := s.colors.set c { col with gates := col.gates ++ [g] }
        gateColors := s.gateColors.set g (cs ++ [c]) }

/-- The find-or-create-then-paint pattern repeated at lines 236-241, 273-278,
339-344, 348-353, 357-369 and 388-392: sort the triple, `addColor` it when
not yet in `parentsToColor`, then paint `g` with `parentsToColor[triple]`
(the `getD 0` branch of the lookup is unreachable because the key was just
ensured to be present; `operator[]` would default-construct there). -/
def paintTriple (s : ThreeColoring) (g : GateId) (a b d : GateId) :
    Except CErr ThreeColoring :=
  if mapFind? s.parentsToColor (ThreeColor.sortedParents a b d) = none then
    paintGate (addColor s ((ThreeColor.sortedParents a b d).getD 0 0)
        ((ThreeColor.sortedParents a b d).getD 1 0)
        ((ThreeColor.sortedParents a b d).getD 2 0)) g
      ((mapFind? (addColor s ((ThreeColor.sortedParents a b d).getD 0 0)
          ((ThreeColor.sortedParents a b d).getD 1 0)
          ((ThreeColor.sortedParents a b d).getD 2 0)).parentsToColor
        (ThreeColor.sortedParents a b d)).getD 0)
  else
    paintGate s g ((mapFind? s.parentsToColor (ThreeColor.sortedParents a b d)).getD 0)

/-- Paint `g` with each color of the list in order (the loop of lines
129-132). -/
def paintAll (s : ThreeColoring) (g : GateId) : List ColorId → Except CErr ThreeColoring
  | [] => .ok s
  | c :: rest => ebind (paintGate s g c) fun s1 => paintAll s1 g rest

/-- The `NOT` bookkeeping of lines 134-138: record `g` as the negation user
of its operand `a` (a checked write `negationUsers.at(a) = g`). -/
def notUpdate (circ : Circuit) (s : ThreeColoring) (g a : GateId) :
    Except CErr ThreeColoring :=
  if circ.gateType g = GateType.NOT then
    ebind (listAt s.negationUsers a) fun _ =>
      .ok { s with negationUsers := s.negationUsers.set a (some g) }
  else .ok s

/-- The unary-operation branch (lines 127-140): inherit the operand's colors
verbatim, then the `NOT` bookkeeping. -/
def unaryStep (circ : Circuit) (s : ThreeColoring) (g a : GateId) :
    Except CErr ThreeColoring :=
  ebind (listAt s.gateColors a) fun cs =>
  ebind (paintAll s g cs) fun s1 =>
  notUpdate circ s1 g a

/-- The inner scan of lines 172-182: walk `child_2`'s colors; equal colors
are collected into `common_colors`, otherwise a color whose parents contain
`child_1` is remembered as `color_type_13` (later finds overwrite). -/
def scanInner (cols : List ThreeColor) (child1 : GateId) (fc : ColorId) :
    List ColorId → List ColorId × Option ColorId →
    Except CErr (List ColorId × Option ColorId)
  | [], acc => .ok acc
  | sc :: rest, acc =>
    if fc = sc then scanInner cols child1 fc rest (acc.1 ++ [fc], acc.2)
    else
      ebind (listAt cols sc) fun col =>
      if col.hasParent child1 then scanInner cols child1 fc rest (acc.1, some sc)
      else scanInner cols child1 fc rest acc

/-- The outer scan of lines 170-187: for each color of `child_1` run the
inner scan, then remember it as `color_type_31` when its parents contain
`child_2`. -/
def scanOuter (cols : List ThreeColor) (child1 child2 : GateId) (l2 : List ColorId) :
    List ColorId → List ColorId × Option ColorId × Option ColorId →
    Except CErr (List ColorId × Option ColorId × Option ColorId)
  | [], acc => .ok acc
  | fc :: rest, acc =>
    ebind (scanInner cols child1 fc l2 (acc.1, acc.2.1)) fun p =>
    ebind (listAt cols fc) fun col =>
    if col.hasParent child2 then scanOuter cols child1 child2 l2 rest (p.1, p.2, some fc)
    else scanOuter cols child1 child2 l2 rest (p.1, p.2, acc.2.2)

/-- The children-pattern search of lines 165-187, producing
`(common_colors, color_type_13, color_type_31)`.  Both gate-color lists are
read up front; the C++ re-reads `gateColors.at(child_2)` in each outer
iteration of the immutable table, with the same values and the same
out-of-range outcomes. -/
def collectPatterns (s : ThreeColoring) (child1 child2 : GateId) :
    Except CErr (List ColorId × Option ColorId × Option ColorId) :=
  ebind (listAt s.gateColors child1) fun l1 =>
  ebind (listAt s.gateColors child2) fun l2 =>
  scanOuter s.colors child1 child2 l2 l1 ([], none, none)

/-- The find-first-color-containing-both-parents loop repeated at lines
220-228, 257-265, 293-301 and 314-322 (with `break` on the first hit). -/
def findColorWithParents (cols : List ThreeColor) :
    List ColorId → GateId → GateId → Except CErr (Option ColorId)
  | [], _, _ => .ok none
  | c :: rest, p1, p2 =>
    ebind (listAt cols c) fun col =>
    if col.hasParent p1 && col.hasParent p2 then .ok (some c)
    else findColorWithParents cols rest p1 p2

/-- Read a gate's color list and run `findColorWithParents` over it. -/
def scanForPair (cols : List ThreeColor) (gcs : List (List ColorId))
    (child p1 p2 : GateId) : Except CErr (Option ColorId) :=
  ebind (listAt gcs child) fun l =>
  findColorWithParents cols l p1 p2

/-- The secondary 3-1/1-3 action of lines 212-243 (and symmetrically
247-280): after painting the matched color, when the current child has a
`TwoColor` look among the other child's colors for one containing both its
parents; paint it when found, otherwise find-or-create the triple
(parents, other child). -/
def oneThreeSecondary (tc : TwoColoring) (s1 : ThreeColoring)
    (g otherChild : GateId) (ccol : Option ColorId) : Except CErr ThreeColoring :=
  optCase ccol
    (fun cc =>
      ebind (listAt tc.colors cc) fun pcol =>
      ebind (scanForPair s1.colors s1.gateColors otherChild
              pcol.first_parent pcol.second_parent) fun r =>
      optCase r (fun c => paintGate s1 g c)
        (paintTriple s1 g pcol.first_parent pcol.second_parent otherChild))
    (.ok s1)

/-- The 2-2 case of lines 331-372: with child `TwoColor`s `(p1,p2)` and
`(p3,p4)`, paint the triple `(p2,p3,p4)` when `(p3,p4)` contains `p1`, the
triple `(p1,p3,p4)` when it contains `p2`, and otherwise the two triples
`(p1,p2,child_2)` and `(p3,p4,child_1)`. -/
def twoTwoCase (s : ThreeColoring) (g child1 child2 : GateId)
    (fcol scol : TwoColor) : Except CErr ThreeColoring :=
  if scol.hasParent fcol.first_parent then
    paintTriple s g fcol.second_parent scol.first_parent scol.second_parent
  else if scol.hasParent fcol.second_parent then
    paintTriple s g fcol.first_parent scol.first_parent scol.second_parent
  else
    ebind (paintTriple s g fcol.first_parent fcol.second_parent child2) fun s1 =>
    paintTriple s1 g scol.first_parent scol.second_parent child1

/-- Lines 284-392: the single 3-2 check, the single 2-3 check, the 2-2 case
and the one-sided fallback.  `c1col`/`c2col` are the children's two-colors
(the C++ re-reads `twoColoring.gateColor.at(child_i)` here; the table is
immutable so the values and out-of-range outcomes agree).  The final
`(none, none)` arm is unreachable — that situation was dismissed at line
160 — and in the C++ it would be `colors.at(SIZE_MAX)`, an out-of-range
throw. -/
def lateCases (tc : TwoColoring) (s : ThreeColoring) (g child1 child2 : GateId)
    (c1col c2col : Option ColorId) : Except CErr ThreeColoring :=
  ebind (optCase c2col
      (fun sc =>
        ebind (listAt tc.colors sc) fun scol =>
        scanForPair s.colors s.gateColors child1
          scol.first_parent scol.second_parent)
      (.ok none)) fun r32 =>
  optCase r32 (fun c => paintGate s g c) (
    ebind (optCase c1col
        (fun fc =>
          ebind (listAt tc.colors fc) fun fcol =>
          scanForPair s.colors s.gateColors child2
            fcol.first_parent fcol.second_parent)
        (.ok none)) fun r23 =>
    optCase r23 (fun c => paintGate s g c) (
      optCase c1col
        (fun fc =>
          optCase c2col
            (fun sc =>
              ebind (listAt tc.colors fc) fun fcol =>
              ebind (listAt tc.colors sc) fun scol =>
              twoTwoCase s g child1 child2 fcol scol)
            (ebind (listAt tc.colors fc) fun fcol =>
              paintTriple s g fcol.first_parent fcol.second_parent child2))
        (optCase c2col
          (fun sc =>
            ebind (listAt tc.colors sc) fun scol =>
            paintTriple s g scol.first_parent scol.second_parent child1)
          (.error .range))))

/-- The pattern classification of lines 189-282 once the scan results are
known: both common colors, one common color plus a possible 3-1/1-3 match,
a 3-1 match with its secondary action, a 1-3 match with its secondary
action, or fall through to `lateCases`. -/
def afterScan (tc : TwoColoring) (s : ThreeColoring) (g child1 child2 : GateId)
    (c1col c2col : Option ColorId) (common : List ColorId)
    (t13 t31 : Option ColorId) : Except CErr ThreeColoring :=
  if common.length = 2 then
    ebind (paintGate s g (common.getD 0 0)) fun s1 =>
    paintGate s1 g (common.getD 1 0)
  else if common.length = 1 then
    ebind (paintGate s g (common.getD 0 0)) fun s1 =>
    optCase t13 (fun c => paintGate s1 g c)
      (optCase t31 (fun c => paintGate s1 g c) (.ok s1))
  else
    optCase t13
      (fun c13 =>
        ebind (paintGate s g c13) fun s1 =>
        oneThreeSecondary tc s1 g child2 c1col)
      (optCase t31
        (fun c31 =>
          ebind (paintGate s g c31) fun s1 =>
          oneThreeSecondary tc s1 g child1 c2col)
        (lateCases tc s g child1 child2 c1col c2col))

/-- The binary-gate body, lines 149-392: look up the gate's `TwoColor`
(skip when absent), read its parents `child_1`, `child_2`, skip when neither
child carries a `TwoColor`, else scan the children's colors and classify. -/
def binaryStep (tc : TwoColoring) (s : ThreeColoring) (g : GateId) :
    Except CErr ThreeColoring :=
  ebind (listAt tc.gateColor g) fun oc =>
  optCase oc
    (fun twoc =>
      ebind (listAt tc.colors twoc) fun tcol =>
      ebind (listAt tc.gateColor tcol.first_parent) fun c1col =>
      ebind (listAt tc.gateColor tcol.second_parent) fun c2col =>
      if c1col = none ∧ c2col = none then .ok s
      else
        ebind (collectPatterns s tcol.first_parent tcol.second_parent) fun p =>
        afterScan tc s g tcol.first_parent tcol.second_parent c1col c2col
          p.1 p.2.1 p.2.2)
    (.ok s)

/-- One iteration of the constructor's main loop (lines 117-393) for gate
`g`: inputs/constants are skipped, unary gates inherit, gates with more than
two operands abort, binary gates run the coloring logic. -/
def threeStep (circ : Circuit) (tc : TwoColoring) (s : ThreeColoring) (g : GateId) :
    Except CErr ThreeColoring :=
  let ops := circ.operands g
  if ops.isEmpty then .ok s
  else if ops.length = 1 then unaryStep circ s g (ops.getD 0 0)
  else if 2 < ops.length then .error (.nonBinary g)
  else binaryStep tc s g

/-- The constructor's initial state (lines 106-115): empty color table,
`circuit_size` empty gate-color lists, empty map, `circuit_size` sentinel
negation users. -/
def initState (n : Nat) : ThreeColoring :=
  { colors := []
    gateColors := List.replicate n []
    parentsToColor := []
    negationUsers := List.replicate n none
    next_color_id := 0 }

/-- The whole constructor body: fold the per-gate step over the processing
order.  `order` stands for `reverse_view(gate_sorting)`, the reversed
DFS topological sort; the theorems that need it constrain `order` by the
properties the sort guarantees (each gate id below `circ.size` listed
exactly once). -/
def threeColoringRun (circ : Circuit) (tc : TwoColoring) (order : List GateId) :
    Except CErr ThreeColoring :=
  List.foldlM (threeStep circ tc) (initState circ.size) order

/-! ### The database loader `CircuitDB::read_db`

The whitespace-delimited text file is modelled as a list of tokens: numbers
(read by `database >> <integer variable>`) and operator words (read by
`database >> operation`).  A read that fails — wrong token kind, negative
value into an unsigned variable, or exhausted stream — is modelled as
`none`; the loader stops there and keeps what it has accumulated (the C++
stream enters a fail state and the `while` loop terminates). -/

/-- A whitespace-delimited token of the database file. -/
inductive Tok where
  | num (n : Int)
  | str (s : String)
deriving DecidableEq, Repr

/-- `database >> <int32_t>`: consume one numeric token. -/
def readInt : List Tok → Option (Int × List Tok)
  | Tok.num n :: rest => some (n, rest)
  | _ => none

/-- `database >> <size_t / GateId>`: consume one nonnegative numeric token. -/
def readNat : List Tok → Option (Nat × List Tok)
  | Tok.num n :: rest => if 0 ≤ n then some (n.toNat, rest) else none
  | _ => none

/-- `database >> operation`: consume one word token. -/
def readStr : List Tok → Option (String × List Tok)
  | Tok.str s :: rest => some (s, rest)
  | _ => none

/-- The loop of lines 81-85 of circuits_db.hpp: read `outputs_number`
truth-table integers in file order. -/
def readInts : Nat → List Tok → Option (List Int × List Tok)
  | 0, s => some ([], s)
  | k + 1, s =>
    optCase (readInt s)
      (fun q => optCase (readInts k q.2)
        (fun q2 => some (q.1 :: q2.1, q2.2)) none)
      none

/-- The loop of lines 89-95: read `outputs_number` output gate ids while
tracking their maximum (the running `max_index`, initialised to 0). -/
def readNatsMax : Nat → Nat → List Tok → Option (List Nat × Nat × List Tok)
  | 0, m, s => some ([], m, s)
  | k + 1, m, s =>
    optCase (readNat s)
      (fun q => optCase (readNatsMax k (max m q.1) q.2)
        (fun q2 => some (q.1 :: q2.1, q2.2.1, q2.2.2)) none)
      none

/-- Modelled from the spec: `csat::utils::stringToGateType` of
src/utility/converters.hpp, which is not among the provided sources.  It
maps the operator words of the basic basis to their `GateType` tags; the
database uses only these words, so the catch-all arm is never consulted by
well-formed files. -/
def stringToGateType (s : String) : GateType :=
  if s = "NOT" then GateType.NOT
  else if s = "AND" then GateType.AND
  else if s = "OR" then GateType.OR
  else if s = "NAND" then GateType.NAND
  else if s = "NOR" then GateType.NOR
  else if s = "XOR" then GateType.XOR
  else if s = "XNOR" then GateType.XNOR
  else GateType.CONST_FALSE

/-- The gate-description loop of lines 103-128: for ids `inputs_number` up
to the running `max_index` — which grows when an operand id exceeds it —
read an operator word and one operand (after `NOT`) or two operands
(otherwise), counting binary gates in `opern`.  `fuel` is only a
termination device: each iteration consumes at least two tokens, so any
`fuel` at least the stream length reproduces the C++ loop. -/
def readGatesLoop : Nat → List Tok → Nat → Nat → List GateType →
    List (List Nat) → Nat →
    Option ((List GateType × List (List Nat) × Nat × Nat) × List Tok)
  | 0, stream, i, maxIdx, ops, opnds, opern =>
    if maxIdx < i then some ((ops, opnds, opern, maxIdx), stream) else none
  | fuel' + 1, stream, i, maxIdx, ops, opnds, opern =>
    if maxIdx < i then some ((ops, opnds, opern, maxIdx), stream)
    else
      optCase (readStr stream)
          (fun q =>
            optCase (readNat q.2)
              (fun q1 =>
                if q.1 = "NOT" then
                  readGatesLoop fuel' q1.2 (i + 1) (max maxIdx q1.1)
                    (ops ++ [stringToGateType q.1]) (opnds ++ [[q1.1]]) opern
                else
                  optCase (readNat q1.2)
                    (fun q2 =>
                      readGatesLoop fuel' q2.2 (i + 1) (max (max maxIdx q1.1) q2.1)
                        (ops ++ [stringToGateType q.1])
                        (opnds ++ [[q1.1, q2.1]]) (opern + 1))
                    none)
              none)
          none

/-- The loaded database (struct `CircuitDB`): the pattern lookup map and the
per-record outputs, operand lists, binary-gate counts and operator lists. -/
structure CircuitDB where
  subcircuit_pattern_to_index : List (List Int × Int)
  subcircuit_outputs : List (List Nat)
  gates_operands : List (List (List Nat))
  OPER_number : List Int
  gates_operations : List (List GateType)
deriving DecidableEq, Repr

/-- The `while (database >> inputs_number)` loop of lines 74-130: per
record, read the input count, the output count, the truth-table patterns
(inserted into the map immediately, keyed exactly as read), the output ids
with their maximum, then the gate descriptions.  A failed inner read stops
the loop keeping the updates already applied (the record's partially filled
per-gate vectors are not kept; the C++ stream would be in a fail state and
the loop would terminate on the next `>>`).  `fuel` is only a termination
device: a record consumes at least two tokens. -/
def read_db_loop : Nat → List Tok → Int → CircuitDB → CircuitDB
  | 0, _, _, db => db
  | fuel' + 1, stream, idx, db =>
    optCase (readNat stream)
      (fun q1 =>
        optCase (readNat q1.2)
          (fun q2 =>
            optCase (readInts q2.1 q2.2)
              (fun q3 =>
                let db1 := { db with
                  subcircuit_pattern_to_index :=
                    mapAssign db.subcircuit_pattern_to_index q3.1 idx }
                optCase (readNatsMax q2.1 0 q3.2)
                  (fun q4 =>
                    let db2 := { db1 with
                      subcircuit_outputs := db1.subcircuit_outputs ++ [q4.1] }
                    optCase (readGatesLoop q4.2.2.length q4.2.2 q1.1 q4.2.1 [] [] 0)
                      (fun q5 =>
                        read_db_loop fuel' q5.2 (idx + 1)
                          { db2 with
                            gates_operands := db2.gates_operands ++ [q5.1.2.1]
                            gates_operations := db2.gates_operations ++ [q5.1.1]
                            OPER_number :=
                              db2.OPER_number ++ [Int.ofNat q5.1.2.2.1] })
                      db2)
                  db1)
              db)
          db)
      db

/-- `CircuitDB::read_db` on a token stream, starting from an empty database
and `subcircuit_index = 0`. -/
def read_db (stream : List Tok) : CircuitDB :=
  read_db_loop (stream.length + 1) stream 0
    { subcircuit_pattern_to_index := []
      subcircuit_outputs := []
      gates_operands := []
      OPER_number := []
      gates_operations := [] }

/-! ### Helper lemmas -/

theorem listAt_ok {α : Type} {l : List α} {i : Nat} (h : i < l.length) :
    listAt l i = .ok l[i] := by
  simp [listAt, List.getElem?_eq_getElem h]

theorem listAt_ok_iff {α : Type} {l : List α} {i : Nat} {a : α} :
    listAt l i = .ok a ↔ l[i]? = some a := by
  unfold listAt
  cases h : l[i]? <;> simp

theorem lt_length_of_getElem?_eq_some {α : Type} {l : List α} {i : Nat} {x : α}
    (h : l[i]? = some x) : i < l.length := by
  rcases Nat.lt_or_ge i l.length with hl | hl
  · exact hl
  · rw [List.getElem?_eq_none hl] at h
    exact Option.noConfusion h

theorem mapFind_assign_self {κ ν : Type} [DecidableEq κ]
    (m : List (κ × ν)) (k : κ) (v : ν) : mapFind? (mapAssign m k v) k = some v := by
  induction m with
  | nil => simp [mapAssign, mapFind?]
  | cons p rest ih =>
    by_cases h : p.1 = k
    · simp [mapAssign, h, mapFind?]
    · simp only [mapAssign, h, if_false, mapFind?]
      simpa [h] using ih

theorem mapFind_assign_ne {κ ν : Type} [DecidableEq κ]
    (m : List (κ × ν)) (k k' : κ) (v : ν) (hne : k' ≠ k) :
    mapFind? (mapAssign m k v) k' = mapFind? m k' := by
  have hkk : k ≠ k' := fun h => hne h.symm
  induction m with
  | nil => simp [mapAssign, mapFind?, hkk]
  | cons p rest ih =>
    by_cases h : p.1 = k
    · subst h
      simp [mapAssign, mapFind?, hkk]
    · simp only [mapAssign, h, if_false, mapFind?]
      by_cases h2 : p.1 = k' <;> simp [h2, ih]

theorem sortedParents_spec (a b c : GateId) :
    ∃ x y z, ThreeColor.sortedParents a b c = [x, y, z] ∧ x ≤ y ∧ y ≤ z := by
  have hlen : (ThreeColor.sortedParents a b c).length = 3 :=
    List.length_insertionSort _ _
  have hsort : (ThreeColor.sortedParents a b c).Sorted (· ≤ ·) :=
    List.sorted_insertionSort _ _
  match hl : ThreeColor.sortedParents a b c with
  | [x, y, z] =>
    rw [hl] at hsort
    simp only [List.sorted_cons, List.mem_cons] at hsort
    exact ⟨x, y, z, rfl, hsort.1 y (by simp), hsort.2.1 z (by simp)⟩
  | [] => rw [hl] at hlen; simp at hlen
  | [_] => rw [hl] at hlen; simp at hlen
  | [_, _] => rw [hl] at hlen; simp at hlen
  | _ :: _ :: _ :: _ :: _ => rw [hl] at hlen; simp at hlen

theorem sortedParents_of_sorted {x y z : GateId} (h1 : x ≤ y) (h2 : y ≤ z) :
    ThreeColor.sortedParents x y z = [x, y, z] := by
  have : ([x, y, z] : List GateId).Sorted (· ≤ ·) := by
    simp [List.sorted_cons]
    exact ⟨⟨h1, le_trans h1 h2⟩, h2⟩
  exact this.insertionSort_eq

/-- Sorting the already-sorted fields of a freshly constructed color gives
back the key it was created from. -/
theorem parentsKey_mkSorted (a b c : GateId) :
    parentsKey (ThreeColor.mkSorted a b c) = ThreeColor.sortedParents a b c := by
  obtain ⟨x, y, z, hl, h1, h2⟩ := sortedParents_spec a b c
  simp only [parentsKey, ThreeColor.mkSorted, hl]
  simp [List.getD, sortedParents_of_sorted h1 h2]

theorem sortedParents_getD (a b c : GateId) :
    ThreeColor.sortedParents
      ((ThreeColor.sortedParents a b c).getD 0 0)
      ((ThreeColor.sortedParents a b c).getD 1 0)
      ((ThreeColor.sortedParents a b c).getD 2 0) = ThreeColor.sortedParents a b c := by
  obtain ⟨x, y, z, hl, h1, h2⟩ := sortedParents_spec a b c
  rw [hl]
  simp [List.getD, sortedParents_of_sorted h1 h2]

theorem gcAt_set_self {s : ThreeColoring} {g : GateId} {v : List ColorId}
    (hg : g < s.gateColors.length) :
    (s.gateColors.set g v).getD g [] = v := by
  simp [List.getD_eq_getElem?_getD, List.getElem?_set_self (by simpa using hg)]

theorem gcAt_set_ne {s : ThreeColoring} {g g' : GateId} {v : List ColorId}
    (h : g' ≠ g) : (s.gateColors.set g v).getD g' [] = gcAt s g' := by
  simp [gcAt, List.getD_eq_getElem?_getD, List.getElem?_set_ne (fun hh => h hh.symm)]

/-! ### The constructor invariant -/

/-- State invariant maintained by every iteration of the constructor loop:
the two per-gate tables keep their size, `next_color_id_` counts the colors,
every stored `ColorId` is in range, and `parentsToColor` and `colors` are
in bijection through the sorted-parents key. -/
structure Inv (n : Nat) (s : ThreeColoring) : Prop where
  gc_len : s.gateColors.length = n
  nu_len : s.negationUsers.length = n
  colors_next : s.next_color_id = s.colors.length
  gc_bound : ∀ g, ∀ c ∈ gcAt s g, c < s.colors.length
  map_keys : ∀ k c, mapFind? s.parentsToColor k = some c →
    ∃ t, s.colors[c]? = some t ∧ parentsKey t = k
  map_surj : ∀ c t, s.colors[c]? = some t →
    mapFind? s.parentsToColor (parentsKey t) = some c

theorem gcAt_replicate (n : Nat) (g : GateId)
    {s : ThreeColoring} (h : s.gateColors = List.replicate n []) : gcAt s g = [] := by
  rw [gcAt, h, List.getD_eq_getElem?_getD, List.getElem?_replicate]
  by_cases hg : g < n <;> simp [hg]

theorem Inv.init (n : Nat) : Inv n (initState n) := by
  refine ⟨by simp [initState], by simp [initState], by simp [initState], ?_, ?_, ?_⟩
  · intro g c hmem
    rw [gcAt_replicate n g rfl] at hmem
    simp at hmem
  · intro k c h
    simp [initState, mapFind?] at h
  · intro c t h
    simp [initState] at h

/-- Specification of `paintGate`: with both indices in range it succeeds,
preserves the invariant and every container except the painted entries, and
appends `c` to gate `g`'s color list. -/
theorem paintGate_spec {n : Nat} {s : ThreeColoring} {g : GateId} {c : ColorId}
    (hInv : Inv n s) (hc : c < s.colors.length) (hg : g < s.gateColors.length) :
    ∃ s', paintGate s g c = .ok s' ∧ Inv n s' ∧
      s'.colors.length = s.colors.length ∧
      s'.parentsToColor = s.parentsToColor ∧
      s'.negationUsers = s.negationUsers ∧
      gcAt s' g = gcAt s g ++ [c] ∧
      (∀ g', g' ≠ g → gcAt s' g' = gcAt s g') ∧
      (∀ c' : Nat, (s'.colors[c']?).map parentsKey = (s.colors[c']?).map parentsKey) := by
  have hcol := listAt_ok (l := s.colors) hc
  have hgc := listAt_ok (l := s.gateColors) hg
  have hgcAt : gcAt s g = s.gateColors[g] := by
    simp [gcAt, List.getD_eq_getElem?_getD, List.getElem?_eq_getElem hg]
  have hstep : paintGate s g c = .ok { s with
      colors := s.colors.set c { s.colors[c] with gates := s.colors[c].gates ++ [g] },
      gateColors := s.gateColors.set g (s.gateColors[g] ++ [c]) } := by
    rw [paintGate, hcol, hgc]
    simp only [ebind_ok]
  have hkeys : ∀ c' : Nat, ((s.colors.set c { s.colors[c] with
      gates := s.colors[c].gates ++ [g] })[c']?).map parentsKey
      = (s.colors[c']?).map parentsKey := by
    intro c'
    by_cases h : c' = c
    · subst h
      rw [List.getElem?_set_self (by simpa using hc), List.getElem?_eq_getElem hc]
      rfl
    · rw [List.getElem?_set_ne (fun hh => h hh.symm)]
  have hinv2 : Inv n { s with
      colors := s.colors.set c { s.colors[c] with gates := s.colors[c].gates ++ [g] },
      gateColors := s.gateColors.set g (s.gateColors[g] ++ [c]) } := by
    constructor
    · simpa using hInv.gc_len
    · simpa using hInv.nu_len
    · simpa using hInv.colors_next
    · intro g' c' hmem
      rw [show ({ s with
            colors := s.colors.set c { s.colors[c] with gates := s.colors[c].gates ++ [g] },
            gateColors := s.gateColors.set g (s.gateColors[g] ++ [c]) } :
          ThreeColoring).colors.length = s.colors.length by simp]
      by_cases h : g' = g
      · rw [h] at hmem
        rw [show gcAt { s with
              colors := s.colors.set c { s.colors[c] with gates := s.colors[c].gates ++ [g] },
              gateColors := s.gateColors.set g (s.gateColors[g] ++ [c]) } g
            = s.gateColors[g] ++ [c] from gcAt_set_self hg] at hmem
        rcases List.mem_append.mp hmem with hmem | hmem
        · exact hInv.gc_bound g c' (by rwa [hgcAt])
        · have hcc : c' = c := by simpa using hmem
          rw [hcc]
          exact hc
      · rw [show gcAt { s with
              colors := s.colors.set c { s.colors[c] with gates := s.colors[c].gates ++ [g] },
              gateColors := s.gateColors.set g (s.gateColors[g] ++ [c]) } g'
            = gcAt s g' from gcAt_set_ne h] at hmem
        exact hInv.gc_bound g' c' hmem
    · intro k c' hfind
      obtain ⟨t, ht, hkey⟩ := hInv.map_keys k c' hfind
      have hmk := hkeys c'
      rw [ht] at hmk
      rcases Option.map_eq_some'.mp
        (show Option.map parentsKey (s.colors.set c { s.colors[c] with
          gates := s.colors[c].gates ++ [g] })[c']? = some (parentsKey t) from hmk)
        with ⟨t', ht', hk'⟩
      exact ⟨t', ht', by rw [hk', hkey]⟩
    · intro c' t' ht'
      have hmk := hkeys c'
      have ht'2 : (s.colors.set c { s.colors[c] with
          gates := s.colors[c].gates ++ [g] })[c']? = some t' := ht'
      rw [ht'2] at hmk
      rcases Option.map_eq_some'.mp
        (show Option.map parentsKey s.colors[c']? = some (parentsKey t') from hmk.symm)
        with ⟨t, ht, hk⟩
      rw [show parentsKey t' = parentsKey t from hk.symm]
      exact hInv.map_surj c' t ht
  have hpaint : (s.gateColors.set g (s.gateColors[g] ++ [c])).getD g []
      = gcAt s g ++ [c] := by
    rw [gcAt_set_self hg, hgcAt]
  exact ⟨_, hstep, hinv2, by simp, rfl, rfl, hpaint,
    fun g' hne => gcAt_set_ne hne, hkeys⟩

/-- Specification of `addColor` when the sorted key is not yet bound (the
only situation in which the constructor calls it): one color is appended,
keyed by its sorted parents, and everything else is untouched. -/
theorem addColor_spec {n : Nat} {s : ThreeColoring} {p1 p2 p3 : GateId}
    (hInv : Inv n s)
    (habs : mapFind? s.parentsToColor (ThreeColor.sortedParents p1 p2 p3) = none) :
    Inv n (addColor s p1 p2 p3) ∧
      (addColor s p1 p2 p3).colors.length = s.colors.length + 1 ∧
      (addColor s p1 p2 p3).gateColors = s.gateColors ∧
      (addColor s p1 p2 p3).negationUsers = s.negationUsers ∧
      mapFind? (addColor s p1 p2 p3).parentsToColor
        (ThreeColor.sortedParents p1 p2 p3) = some s.colors.length ∧
      (∃ t, (addColor s p1 p2 p3).colors[s.colors.length]? = some t ∧
        parentsKey t = ThreeColor.sortedParents p1 p2 p3) := by
  set key := ThreeColor.sortedParents p1 p2 p3 with hkeydef
  have hnew : (s.colors ++ [ThreeColor.mkSorted p1 p2 p3])[s.colors.length]?
      = some (ThreeColor.mkSorted p1 p2 p3) := by
    rw [List.getElem?_append_right (le_refl _)]
    simp
  have hself : mapFind? (mapAssign s.parentsToColor key s.next_color_id) key
      = some s.colors.length := by
    rw [mapFind_assign_self, hInv.colors_next]
  refine ⟨?_, by simp [addColor], rfl, rfl, hself, ⟨_, hnew, parentsKey_mkSorted p1 p2 p3⟩⟩
  constructor
  · simpa [addColor] using hInv.gc_len
  · simpa [addColor] using hInv.nu_len
  · simp [addColor, hInv.colors_next]
  · intro g c hmem
    have hb := hInv.gc_bound g c hmem
    have hl1 : (addColor s p1 p2 p3).colors.length = s.colors.length + 1 := by
      show (s.colors ++ [ThreeColor.mkSorted p1 p2 p3]).length = _
      simp
    rw [hl1]
    exact Nat.lt_succ_of_lt hb
  · intro k c hfind
    by_cases hk : k = key
    · rw [hk] at hfind ⊢
      rw [show (addColor s p1 p2 p3).parentsToColor
          = mapAssign s.parentsToColor key s.next_color_id from rfl, hself] at hfind
      cases hfind
      exact ⟨_, hnew, parentsKey_mkSorted p1 p2 p3⟩
    · rw [show (addColor s p1 p2 p3).parentsToColor
          = mapAssign s.parentsToColor key s.next_color_id from rfl,
        mapFind_assign_ne _ _ _ _ hk] at hfind
      obtain ⟨t, ht, hkey⟩ := hInv.map_keys k c hfind
      have hlt : c < s.colors.length := lt_length_of_getElem?_eq_some ht
      exact ⟨t, by rw [show (addColor s p1 p2 p3).colors
        = s.colors ++ [ThreeColor.mkSorted p1 p2 p3] from rfl,
        List.getElem?_append_left hlt]; exact ht, hkey⟩
  · intro c t ht
    rw [show (addColor s p1 p2 p3).colors
        = s.colors ++ [ThreeColor.mkSorted p1 p2 p3] from rfl] at ht
    rcases Nat.lt_trichotomy c s.colors.length with hlt | heq | hgt
    · rw [List.getElem?_append_left hlt] at ht
      have hfind := hInv.map_surj c t ht
      have hne : parentsKey t ≠ key := by
        intro hkk
        rw [hkk, habs] at hfind
        exact Option.noConfusion hfind
      rw [show (addColor s p1 p2 p3).parentsToColor
          = mapAssign s.parentsToColor key s.next_color_id from rfl,
        mapFind_assign_ne _ _ _ _ hne]
      exact hfind
    · subst heq
      rw [hnew] at ht
      cases ht
      rw [show (addColor s p1 p2 p3).parentsToColor
          = mapAssign s.parentsToColor key s.next_color_id from rfl,
        parentsKey_mkSorted p1 p2 p3, ← hkeydef, hself]
    · exfalso
      have := lt_length_of_getElem?_eq_some ht
      simp only [List.length_append, List.length_cons, List.length_nil] at this
      omega

/-- Observable effect of one find-or-create-then-paint action on gate `g`
with sorted key `key`: the painted color `c` is bound to `key`, its color
record carries exactly that sorted parent triple, `c` is the pre-existing
binding when `key` was present and a fresh color otherwise. -/
def PaintedTriple (s s' : ThreeColoring) (g : GateId) (key : List GateId)
    (c : ColorId) : Prop :=
  gcAt s' g = gcAt s g ++ [c] ∧
  mapFind? s'.parentsToColor key = some c ∧
  (∃ t, s'.colors[c]? = some t ∧ parentsKey t = key) ∧
  (∀ c0, mapFind? s.parentsToColor key = some c0 →
    c = c0 ∧ s'.colors.length = s.colors.length) ∧
  (mapFind? s.parentsToColor key = none →
    c = s.colors.length ∧ s'.colors.length = s.colors.length + 1)

/-- Specification of `paintTriple`: it succeeds, preserves the invariant,
has the `PaintedTriple` observable effect on the sorted triple, and leaves
other gates' colors and the negation users untouched. -/
theorem paintTriple_spec {n : Nat} {s : ThreeColoring} {g : GateId}
    (hInv : Inv n s) (hg : g < s.gateColors.length) (a b d : GateId) :
    ∃ c s', paintTriple s g a b d = .ok s' ∧ Inv n s' ∧
      PaintedTriple s s' g (ThreeColor.sortedParents a b d) c ∧
      s'.negationUsers = s.negationUsers ∧
      (∀ g', g' ≠ g → gcAt s' g' = gcAt s g') := by
  cases hfind : mapFind? s.parentsToColor (ThreeColor.sortedParents a b d) with
  | some c0 =>
    obtain ⟨t, ht, hkey⟩ := hInv.map_keys _ c0 hfind
    have hc0 : c0 < s.colors.length := lt_length_of_getElem?_eq_some ht
    obtain ⟨s', hok, hInv', hclen, hmap, hneg, hpaint, hother, hkeysp⟩ :=
      paintGate_spec hInv hc0 hg
    refine ⟨c0, s', ?_, hInv', ?_, hneg, hother⟩
    · rw [paintTriple, if_neg (by rw [hfind]; exact fun h => Option.noConfusion h), hfind]
      exact hok
    · refine ⟨hpaint, by rw [hmap]; exact hfind, ?_, ?_, ?_⟩
      · have := hkeysp c0
        rw [ht] at this
        rcases Option.map_eq_some'.mp
          (show Option.map parentsKey s'.colors[c0]? = some (parentsKey t) from this)
          with ⟨t', ht', hk'⟩
        exact ⟨t', ht', by rw [hk', hkey]⟩
      · intro c1 h1
        rw [hfind] at h1
        cases h1
        exact ⟨rfl, hclen⟩
      · intro h1
        rw [hfind] at h1
        exact Option.noConfusion h1
  | none =>
    have hsort := sortedParents_getD a b d
    have habs : mapFind? s.parentsToColor
        (ThreeColor.sortedParents ((ThreeColor.sortedParents a b d).getD 0 0)
          ((ThreeColor.sortedParents a b d).getD 1 0)
          ((ThreeColor.sortedParents a b d).getD 2 0)) = none := by
      rw [hsort]; exact hfind
    obtain ⟨hInvA, hlenA, hgcA, hnuA, hselfA, hexA⟩ := addColor_spec hInv habs
    have hfind1 : mapFind? (addColor s ((ThreeColor.sortedParents a b d).getD 0 0)
        ((ThreeColor.sortedParents a b d).getD 1 0)
        ((ThreeColor.sortedParents a b d).getD 2 0)).parentsToColor
        (ThreeColor.sortedParents a b d) = some s.colors.length := by
      have h := hselfA
      rw [hsort] at h
      exact h
    have hg1 : g < (addColor s ((ThreeColor.sortedParents a b d).getD 0 0)
        ((ThreeColor.sortedParents a b d).getD 1 0)
        ((ThreeColor.sortedParents a b d).getD 2 0)).gateColors.length := by
      rw [hgcA]; exact hg
    have hc1 : s.colors.length < (addColor s ((ThreeColor.sortedParents a b d).getD 0 0)
        ((ThreeColor.sortedParents a b d).getD 1 0)
        ((ThreeColor.sortedParents a b d).getD 2 0)).colors.length := by
      rw [hlenA]; omega
    obtain ⟨s', hok, hInv', hclen, hmap, hneg, hpaint, hother, hkeysp⟩ :=
      paintGate_spec hInvA hc1 hg1
    refine ⟨s.colors.length, s', ?_, hInv', ?_, by rw [hneg, hnuA], ?_⟩
    · rw [paintTriple, if_pos hfind, hfind1]
      exact hok
    · refine ⟨?_, by rw [hmap]; exact hfind1, ?_, ?_, ?_⟩
      · exact hpaint.trans (by rfl)
      · obtain ⟨tA, htA, hkeyA⟩ := hexA
        have := hkeysp s.colors.length
        rw [htA] at this
        rcases Option.map_eq_some'.mp
          (show Option.map parentsKey s'.colors[s.colors.length]?
            = some (parentsKey tA) from this)
          with ⟨t', ht', hk'⟩
        exact ⟨t', ht', by rw [hk', hkeyA, hsort]⟩
      · intro c0 h0
        rw [hfind] at h0
        exact Option.noConfusion h0
      · intro _
        exact ⟨rfl, by rw [hclen, hlenA]⟩
    · intro g' hne
      exact (hother g' hne).trans (by rfl)

/-- Specification of `paintAll`: painting a list of in-range colors appends
exactly that list to gate `g`'s colors. -/
theorem paintAll_spec {n : Nat} (cs : List ColorId) :
    ∀ (s : ThreeColoring) (g : GateId), Inv n s → g < s.gateColors.length →
    (∀ c ∈ cs, c < s.colors.length) →
    ∃ s', paintAll s g cs = .ok s' ∧ Inv n s' ∧
      s'.colors.length = s.colors.length ∧
      s'.parentsToColor = s.parentsToColor ∧
      s'.negationUsers = s.negationUsers ∧
      gcAt s' g = gcAt s g ++ cs ∧
      (∀ g', g' ≠ g → gcAt s' g' = gcAt s g') := by
  induction cs with
  | nil =>
    intro s g hInv _ _
    exact ⟨s, rfl, hInv, rfl, rfl, rfl, by simp, fun _ _ => rfl⟩
  | cons c rest ih =>
    intro s g hInv hg hb
    obtain ⟨s1, hok1, hInv1, hclen1, hmap1, hneg1, hpaint1, hother1, _⟩ :=
      paintGate_spec hInv (hb c (by simp)) hg
    have hg1 : g < s1.gateColors.length := by
      rw [hInv1.gc_len, ← hInv.gc_len]; exact hg
    obtain ⟨s2, hok2, hInv2, hclen2, hmap2, hneg2, hpaint2, hother2⟩ :=
      ih s1 g hInv1 hg1 (fun c' hc' => by rw [hclen1]; exact hb c' (by simp [hc']))
    refine ⟨s2, ?_, hInv2, by rw [hclen2, hclen1], by rw [hmap2, hmap1],
      by rw [hneg2, hneg1], ?_, ?_⟩
    · rw [paintAll, hok1]
      exact hok2
    · rw [hpaint2, hpaint1]
      simp
    · intro g' hne
      rw [hother2 g' hne, hother1 g' hne]

/-- Specification of `notUpdate`: with the operand index in range it
succeeds, the negation-user entry is set exactly when the gate is a `NOT`,
and nothing else changes. -/
theorem notUpdate_spec {n : Nat} {s : ThreeColoring} {g a : GateId}
    (circ : Circuit) (hInv : Inv n s) (ha : a < s.negationUsers.length) :
    ∃ s', notUpdate circ s g a = .ok s' ∧ Inv n s' ∧
      s'.colors = s.colors ∧
      s'.gateColors = s.gateColors ∧
      s'.parentsToColor = s.parentsToColor ∧
      (circ.gateType g = GateType.NOT →
        s'.negationUsers = s.negationUsers.set a (some g)) ∧
      (circ.gateType g ≠ GateType.NOT → s'.negationUsers = s.negationUsers) := by
  by_cases ht : circ.gateType g = GateType.NOT
  · have hstep : notUpdate circ s g a
        = .ok { s with negationUsers := s.negationUsers.set a (some g) } := by
      rw [notUpdate, if_pos ht, listAt_ok ha]
      simp only [ebind_ok]
    refine ⟨_, hstep, ?_, rfl, rfl, rfl,
      fun _ => rfl, fun hc => absurd ht hc⟩
    constructor
    · exact hInv.gc_len
    · simpa using hInv.nu_len
    · exact hInv.colors_next
    · exact hInv.gc_bound
    · exact hInv.map_keys
    · exact hInv.map_surj
  · exact ⟨s, by rw [notUpdate, if_neg ht], hInv, rfl, rfl, rfl,
      fun hc => absurd hc ht, fun _ => rfl⟩

/-- Specification of the unary branch: gate `g` inherits its operand's color
list verbatim, the negation user of the operand is set exactly for `NOT`
gates, and other gates' colors, the color table and the map are untouched. -/
theorem unaryStep_spec {n : Nat} {s : ThreeColoring} {g a : GateId}
    (circ : Circuit) (hInv : Inv n s) (hg : g < s.gateColors.length)
    (ha : a < s.gateColors.length) :
    ∃ s', unaryStep circ s g a = .ok s' ∧ Inv n s' ∧
      s'.colors.length = s.colors.length ∧
      s'.parentsToColor = s.parentsToColor ∧
      gcAt s' g = gcAt s g ++ gcAt s a ∧
      (∀ g', g' ≠ g → gcAt s' g' = gcAt s g') ∧
      (circ.gateType g = GateType.NOT →
        s'.negationUsers = s.negationUsers.set a (some g)) ∧
      (circ.gateType g ≠ GateType.NOT → s'.negationUsers = s.negationUsers) := by
  have hcs : s.gateColors[a] = gcAt s a := by
    simp [gcAt, List.getD_eq_getElem?_getD, List.getElem?_eq_getElem ha]
  obtain ⟨s1, hok1, hInv1, hclen1, hmap1, hneg1, hpaint1, hother1⟩ :=
    paintAll_spec (n := n) (gcAt s a) s g hInv hg (hInv.gc_bound a)
  have hna1 : a < s1.negationUsers.length := by
    rw [hInv1.nu_len, ← hInv.gc_len]; exact ha
  obtain ⟨s2, hok2, hInv2, hcol2, hgc2, hmap2, hnot2, hnnot2⟩ :=
    notUpdate_spec circ hInv1 hna1
  have hgcAt2 : ∀ g', gcAt s2 g' = gcAt s1 g' := by
    intro g'; rw [gcAt, hgc2]; rfl
  refine ⟨s2, ?_, hInv2, by rw [show s2.colors.length = s1.colors.length by rw [hcol2],
      hclen1], by rw [hmap2, hmap1], by rw [hgcAt2 g, hpaint1], ?_, ?_, ?_⟩
  · rw [unaryStep, listAt_ok ha]
    simp only [ebind_ok]
    rw [hcs, hok1]
    simp only [ebind_ok]
    exact hok2
  · intro g' hne
    rw [hgcAt2 g', hother1 g' hne]
  · intro ht
    rw [hnot2 ht, hneg1]
  · intro ht
    rw [hnnot2 ht, hneg1]

/-- Specification of `findColorWithParents`: with in-range candidates it
succeeds, and a hit is one of the candidates. -/
theorem findColorWithParents_spec (cols : List ThreeColor) :
    ∀ (cands : List ColorId) (p1 p2 : GateId), (∀ c ∈ cands, c < cols.length) →
    ∃ r, findColorWithParents cols cands p1 p2 = .ok r ∧
      (∀ c, r = some c → c ∈ cands) := by
  intro cands
  induction cands with
  | nil => exact fun p1 p2 _ => ⟨none, rfl, by simp⟩
  | cons c rest ih =>
    intro p1 p2 hb
    have hcm : c < cols.length := hb c (by simp)
    obtain ⟨r, hr, hmem⟩ := ih p1 p2 (fun c' hc' => hb c' (by simp [hc']))
    by_cases hp : (cols[c].hasParent p1 && cols[c].hasParent p2) = true
    · refine ⟨some c, ?_, ?_⟩
      · rw [findColorWithParents, listAt_ok hcm]
        simp only [ebind_ok]
        rw [if_pos hp]
      · intro c' hc'
        cases hc'
        simp
    · refine ⟨r, ?_, fun c' hc' => by simp [hmem c' hc']⟩
      rw [findColorWithParents, listAt_ok hcm]
      simp only [ebind_ok]
      rw [if_neg hp]
      exact hr

/-- Specification of `scanForPair`. -/
theorem scanForPair_spec {n : Nat} {s : ThreeColoring} {child : GateId}
    (hInv : Inv n s) (hchild : child < s.gateColors.length) (p1 p2 : GateId) :
    ∃ r, scanForPair s.colors s.gateColors child p1 p2 = .ok r ∧
      (∀ c, r = some c → c < s.colors.length) := by
  have hl : s.gateColors[child] = gcAt s child := by
    simp [gcAt, List.getD_eq_getElem?_getD, List.getElem?_eq_getElem hchild]
  obtain ⟨r, hr, hmem⟩ :=
    findColorWithParents_spec s.colors (gcAt s child) p1 p2 (hInv.gc_bound child)
  refine ⟨r, ?_, fun c hc => hInv.gc_bound child c (hmem c hc)⟩
  rw [scanForPair, listAt_ok hchild, hl]
  exact hr

/-- Specification of `scanInner`. -/
theorem scanInner_spec (cols : List ThreeColor) (child1 : GateId) (fc : ColorId) :
    ∀ (l2 : List ColorId) (acc : List ColorId × Option ColorId),
    (∀ c ∈ l2, c < cols.length) →
    ∃ cc t13, scanInner cols child1 fc l2 acc = .ok (cc, t13) ∧
      (∀ c ∈ cc, c ∈ acc.1 ∨ c = fc) ∧
      (∀ c, t13 = some c → acc.2 = some c ∨ c ∈ l2) := by
  intro l2
  induction l2 with
  | nil => exact fun acc _ => ⟨acc.1, acc.2, rfl, fun c hc => Or.inl hc, fun c hc => Or.inl hc⟩
  | cons sc rest ih =>
    intro acc hb
    by_cases heq : fc = sc
    · obtain ⟨cc, t13, hok, hcc, ht⟩ := ih (acc.1 ++ [fc], acc.2)
        (fun c hc => hb c (by simp [hc]))
      refine ⟨cc, t13, ?_, ?_, ?_⟩
      · rw [scanInner, if_pos heq]
        exact hok
      · intro c hc
        rcases hcc c hc with h | h
        · rcases List.mem_append.mp h with h | h
          · exact Or.inl h
          · exact Or.inr (by simpa using h)
        · exact Or.inr h
      · intro c hc
        rcases ht c hc with h | h
        · exact Or.inl h
        · exact Or.inr (by simp [h])
    · have hsc : sc < cols.length := hb sc (by simp)
      by_cases hp : cols[sc].hasParent child1 = true
      · obtain ⟨cc, t13, hok, hcc, ht⟩ := ih (acc.1, some sc)
          (fun c hc => hb c (by simp [hc]))
        refine ⟨cc, t13, ?_, hcc, ?_⟩
        · rw [scanInner, if_neg heq, listAt_ok hsc]
          simp only [ebind_ok]
          rw [if_pos hp]
          exact hok
        · intro c hc
          rcases ht c hc with h | h
          · cases h
            exact Or.inr (by simp)
          · exact Or.inr (by simp [h])
      · obtain ⟨cc, t13, hok, hcc, ht⟩ := ih acc (fun c hc => hb c (by simp [hc]))
        refine ⟨cc, t13, ?_, hcc, ?_⟩
        · rw [scanInner, if_neg heq, listAt_ok hsc]
          simp only [ebind_ok]
          rw [if_neg hp]
          exact hok
        · intro c hc
          rcases ht c hc with h | h
          · exact Or.inl h
          · exact Or.inr (by simp [h])

/-- Specification of `scanOuter`. -/
theorem scanOuter_spec (cols : List ThreeColor) (child1 child2 : GateId)
    (l2 : List ColorId) (hl2 : ∀ c ∈ l2, c < cols.length) :
    ∀ (l1 : List ColorId) (acc : List ColorId × Option ColorId × Option ColorId),
    (∀ c ∈ l1, c < cols.length) →
    ∃ cc t13 t31, scanOuter cols child1 child2 l2 l1 acc = .ok (cc, t13, t31) ∧
      (∀ c ∈ cc, c ∈ acc.1 ∨ c ∈ l1) ∧
      (∀ c, t13 = some c → acc.2.1 = some c ∨ c ∈ l2) ∧
      (∀ c, t31 = some c → acc.2.2 = some c ∨ c ∈ l1) := by
  intro l1
  induction l1 with
  | nil =>
    exact fun acc _ => ⟨acc.1, acc.2.1, acc.2.2, rfl, fun c hc => Or.inl hc,
      fun c hc => Or.inl hc, fun c hc => Or.inl hc⟩
  | cons fc rest ih =>
    intro acc hb
    have hfc : fc < cols.length := hb fc (by simp)
    obtain ⟨cc0, t130, hok0, hcc0, ht0⟩ :=
      scanInner_spec cols child1 fc l2 (acc.1, acc.2.1) hl2
    by_cases hp : cols[fc].hasParent child2 = true
    · obtain ⟨cc, t13, t31, hok, hcc, ht13, ht31⟩ := ih (cc0, t130, some fc)
        (fun c hc => hb c (by simp [hc]))
      refine ⟨cc, t13, t31, ?_, ?_, ?_, ?_⟩
      · rw [scanOuter, hok0]
        simp only [ebind_ok]
        rw [listAt_ok hfc]
        simp only [ebind_ok]
        rw [if_pos hp]
        exact hok
      · intro c hc
        rcases hcc c hc with h | h
        · rcases hcc0 c h with h2 | h2
          · exact Or.inl h2
          · exact Or.inr (by simp [h2])
        · exact Or.inr (by simp [h])
      · intro c hc
        rcases ht13 c hc with h | h
        · exact ht0 c h
        · exact Or.inr h
      · intro c hc
        rcases ht31 c hc with h | h
        · cases h
          exact Or.inr (by simp)
        · exact Or.inr (by simp [h])
    · obtain ⟨cc, t13, t31, hok, hcc, ht13, ht31⟩ := ih (cc0, t130, acc.2.2)
        (fun c hc => hb c (by simp [hc]))
      refine ⟨cc, t13, t31, ?_, ?_, ?_, ?_⟩
      · rw [scanOuter, hok0]
        simp only [ebind_ok]
        rw [listAt_ok hfc]
        simp only [ebind_ok]
        rw [if_neg hp]
        exact hok
      · intro c hc
        rcases hcc c hc with h | h
        · rcases hcc0 c h with h2 | h2
          · exact Or.inl h2
          · exact Or.inr (by simp [h2])
        · exact Or.inr (by simp [h])
      · intro c hc
        rcases ht13 c hc with h | h
        · exact ht0 c h
        · exact Or.inr h
      · intro c hc
        rcases ht31 c hc with h | h
        · exact Or.inl h
        · exact Or.inr (by simp [h])

/-- Specification of `collectPatterns`: it succeeds on in-range children and
returns in-range colors. -/
theorem collectPatterns_spec {n : Nat} {s : ThreeColoring} {child1 child2 : GateId}
    (hInv : Inv n s) (h1 : child1 < s.gateColors.length)
    (h2 : child2 < s.gateColors.length) :
    ∃ cc t13 t31, collectPatterns s child1 child2 = .ok (cc, t13, t31) ∧
      (∀ c ∈ cc, c < s.colors.length) ∧
      (∀ c, t13 = some c → c < s.colors.length) ∧
      (∀ c, t31 = some c → c < s.colors.length) := by
  have hl1 : s.gateColors[child1] = gcAt s child1 := by
    simp [gcAt, List.getD_eq_getElem?_getD, List.getElem?_eq_getElem h1]
  have hl2 : s.gateColors[child2] = gcAt s child2 := by
    simp [gcAt, List.getD_eq_getElem?_getD, List.getElem?_eq_getElem h2]
  obtain ⟨cc, t13, t31, hok, hcc, ht13, ht31⟩ :=
    scanOuter_spec s.colors child1 child2 (gcAt s child2) (hInv.gc_bound child2)
      (gcAt s child1) ([], none, none) (hInv.gc_bound child1)
  refine ⟨cc, t13, t31, ?_, ?_, ?_, ?_⟩
  · rw [collectPatterns, listAt_ok h1]
    simp only [ebind_ok]
    rw [listAt_ok h2]
    simp only [ebind_ok]
    rw [hl1, hl2]
    exact hok
  · intro c hc
    rcases hcc c hc with h | h
    · simp at h
    · exact hInv.gc_bound child1 c h
  · intro c hc
    rcases ht13 c hc with h | h
    · exact Option.noConfusion h
    · exact hInv.gc_bound child2 c h
  · intro c hc
    rcases ht31 c hc with h | h
    · exact Option.noConfusion h
    · exact hInv.gc_bound child1 c h

/-- One constructor iteration extends gate `g`'s color list by at most `k`
entries and leaves every other gate's list unchanged. -/
def Extends2 (g : GateId) (k : Nat) (s s' : ThreeColoring) : Prop :=
  (∃ l, gcAt s' g = gcAt s g ++ l ∧ l.length ≤ k) ∧
  ∀ g', g' ≠ g → gcAt s' g' = gcAt s g'

theorem Extends2.refl (g : GateId) (k : Nat) (s : ThreeColoring) : Extends2 g k s s :=
  ⟨⟨[], by simp, by simp⟩, fun _ _ => rfl⟩

theorem Extends2.trans {g : GateId} {k1 k2 : Nat} {s s1 s2 : ThreeColoring}
    (h1 : Extends2 g k1 s s1) (h2 : Extends2 g k2 s1 s2) :
    Extends2 g (k1 + k2) s s2 := by
  obtain ⟨⟨l1, hl1, hk1⟩, ho1⟩ := h1
  obtain ⟨⟨l2, hl2, hk2⟩, ho2⟩ := h2
  exact ⟨⟨l1 ++ l2, by rw [hl2, hl1, List.append_assoc], by simp; omega⟩,
    fun g' hne => (ho2 g' hne).trans (ho1 g' hne)⟩

theorem Extends2.mono {g : GateId} {k k' : Nat} {s s' : ThreeColoring}
    (h : Extends2 g k s s') (hk : k ≤ k') : Extends2 g k' s s' := by
  obtain ⟨⟨l, hl, hkl⟩, ho⟩ := h
  exact ⟨⟨l, hl, le_trans hkl hk⟩, ho⟩

theorem Extends2.of_paint {g : GateId} {c : ColorId} {s s' : ThreeColoring}
    (hp : gcAt s' g = gcAt s g ++ [c])
    (ho : ∀ g', g' ≠ g → gcAt s' g' = gcAt s g') : Extends2 g 1 s s' :=
  ⟨⟨[c], hp, by simp⟩, ho⟩

/-- Specification of `twoTwoCase`: it succeeds, preserves the invariant,
paints at most two colors on `g` and nothing on other gates, and keeps the
negation users. -/
theorem twoTwoCase_spec {n : Nat} {s : ThreeColoring} {g child1 child2 : GateId}
    (fcol scol : TwoColor) (hInv : Inv n s) (hg : g < s.gateColors.length) :
    ∃ s', twoTwoCase s g child1 child2 fcol scol = .ok s' ∧ Inv n s' ∧
      Extends2 g 2 s s' ∧ s'.negationUsers = s.negationUsers := by
  by_cases h1 : scol.hasParent fcol.first_parent = true
  · obtain ⟨c, s', hok, hInv', hpt, hneg, hother⟩ :=
      paintTriple_spec hInv hg fcol.second_parent scol.first_parent scol.second_parent
    refine ⟨s', ?_, hInv', (Extends2.of_paint hpt.1 hother).mono (by omega), hneg⟩
    rw [twoTwoCase, if_pos h1]
    exact hok
  · by_cases h2 : scol.hasParent fcol.second_parent = true
    · obtain ⟨c, s', hok, hInv', hpt, hneg, hother⟩ :=
        paintTriple_spec hInv hg fcol.first_parent scol.first_parent scol.second_parent
      refine ⟨s', ?_, hInv', (Extends2.of_paint hpt.1 hother).mono (by omega), hneg⟩
      rw [twoTwoCase, if_neg h1, if_pos h2]
      exact hok
    · obtain ⟨c1, s1, hok1, hInv1, hpt1, hneg1, hother1⟩ :=
        paintTriple_spec hInv hg fcol.first_parent fcol.second_parent child2
      have hg1 : g < s1.gateColors.length := by
        rw [hInv1.gc_len, ← hInv.gc_len]; exact hg
      obtain ⟨c2, s2, hok2, hInv2, hpt2, hneg2, hother2⟩ :=
        paintTriple_spec hInv1 hg1 scol.first_parent scol.second_parent child1
      refine ⟨s2, ?_, hInv2,
        (Extends2.of_paint hpt1.1 hother1).trans (Extends2.of_paint hpt2.1 hother2),
        by rw [hneg2, hneg1]⟩
      rw [twoTwoCase, if_neg h1, if_neg h2, hok1]
      simp only [ebind_ok]
      exact hok2

/-- Specification of `oneThreeSecondary`: it succeeds, preserves the
invariant, paints at most one further color on `g` and keeps the negation
users. -/
theorem oneThreeSecondary_spec {n : Nat} {tc : TwoColoring} {s1 : ThreeColoring}
    {g otherChild : GateId} (ccol : Option ColorId) (hInv : Inv n s1)
    (hg : g < s1.gateColors.length) (hoc : otherChild < s1.gateColors.length)
    (hcc : ∀ cc, ccol = some cc → cc < tc.colors.length) :
    ∃ s', oneThreeSecondary tc s1 g otherChild ccol = .ok s' ∧ Inv n s' ∧
      Extends2 g 1 s1 s' ∧ s'.negationUsers = s1.negationUsers := by
  cases ccol with
  | none =>
    exact ⟨s1, by rw [oneThreeSecondary, optCase_none], hInv, Extends2.refl g 1 s1, rfl⟩
  | some cc =>
    have hcc' : cc < tc.colors.length := hcc cc rfl
    obtain ⟨r, hr, hrb⟩ := scanForPair_spec hInv hoc
      tc.colors[cc].first_parent tc.colors[cc].second_parent
    cases r with
    | some c =>
      obtain ⟨s', hok, hInv', hclen, hmap, hneg, hpaint, hother, _⟩ :=
        paintGate_spec hInv (hrb c rfl) hg
      refine ⟨s', ?_, hInv', Extends2.of_paint hpaint hother, hneg⟩
      rw [oneThreeSecondary, optCase_some, listAt_ok hcc']
      simp only [ebind_ok]
      rw [hr]
      simp only [ebind_ok]
      rw [optCase_some]
      exact hok
    | none =>
      obtain ⟨c, s', hok, hInv', hpt, hneg, hother⟩ :=
        paintTriple_spec hInv hg tc.colors[cc].first_parent
          tc.colors[cc].second_parent otherChild
      refine ⟨s', ?_, hInv', Extends2.of_paint hpt.1 hother, hneg⟩
      rw [oneThreeSecondary, optCase_some, listAt_ok hcc']
      simp only [ebind_ok]
      rw [hr]
      simp only [ebind_ok]
      rw [optCase_none]
      exact hok

theorem getD_lt_of_forall {l : List ColorId} {i m : Nat}
    (h : ∀ c ∈ l, c < m) (hi : i < l.length) : l.getD i 0 < m := by
  have he : l.getD i 0 = l[i] := by
    simp [List.getD_eq_getElem?_getD, List.getElem?_eq_getElem hi]
  rw [he]
  exact h _ (List.getElem_mem hi)

/-- Specification of `lateCases`: with in-range inputs and at least one
child two-color present, it succeeds, preserves the invariant, paints at
most two colors on `g` and keeps the negation users. -/
theorem lateCases_spec {n : Nat} {tc : TwoColoring} {s : ThreeColoring}
    {g child1 child2 : GateId} (c1col c2col : Option ColorId) (hInv : Inv n s)
    (hg : g < s.gateColors.length)
    (hc1 : child1 < s.gateColors.length) (hc2 : child2 < s.gateColors.length)
    (hw1 : ∀ c, c1col = some c → c < tc.colors.length)
    (hw2 : ∀ c, c2col = some c → c < tc.colors.length)
    (hnb : ¬(c1col = none ∧ c2col = none)) :
    ∃ s', lateCases tc s g child1 child2 c1col c2col = .ok s' ∧ Inv n s' ∧
      Extends2 g 2 s s' ∧ s'.negationUsers = s.negationUsers := by
  have h32 : ∃ r32, (optCase c2col
      (fun sc =>
        ebind (listAt tc.colors sc) fun scol =>
        scanForPair s.colors s.gateColors child1
          scol.first_parent scol.second_parent)
      (.ok none)) = .ok r32 ∧ (∀ c, r32 = some c → c < s.colors.length) := by
    cases c2col with
    | none => exact ⟨none, by rw [optCase_none], by simp⟩
    | some sc =>
      have hsc := hw2 sc rfl
      obtain ⟨r, hr, hrb⟩ := scanForPair_spec hInv hc1
        tc.colors[sc].first_parent tc.colors[sc].second_parent
      refine ⟨r, ?_, hrb⟩
      rw [optCase_some, listAt_ok hsc]
      simp only [ebind_ok]
      exact hr
  obtain ⟨r32, h32ok, h32b⟩ := h32
  cases r32 with
  | some c =>
    obtain ⟨s', hok, hInv', _, _, hneg, hpaint, hother, _⟩ :=
      paintGate_spec hInv (h32b c rfl) hg
    refine ⟨s', ?_, hInv', (Extends2.of_paint hpaint hother).mono (by omega), hneg⟩
    rw [lateCases, h32ok]
    simp only [ebind_ok]
    rw [optCase_some]
    exact hok
  | none =>
    have h23 : ∃ r23, (optCase c1col
        (fun fc =>
          ebind (listAt tc.colors fc) fun fcol =>
          scanForPair s.colors s.gateColors child2
            fcol.first_parent fcol.second_parent)
        (.ok none)) = .ok r23 ∧ (∀ c, r23 = some c → c < s.colors.length) := by
      cases c1col with
      | none => exact ⟨none, by rw [optCase_none], by simp⟩
      | some fc =>
        have hfc := hw1 fc rfl
        obtain ⟨r, hr, hrb⟩ := scanForPair_spec hInv hc2
          tc.colors[fc].first_parent tc.colors[fc].second_parent
        refine ⟨r, ?_, hrb⟩
        rw [optCase_some, listAt_ok hfc]
        simp only [ebind_ok]
        exact hr
    obtain ⟨r23, h23ok, h23b⟩ := h23
    cases r23 with
    | some c =>
      obtain ⟨s', hok, hInv', _, _, hneg, hpaint, hother, _⟩ :=
        paintGate_spec hInv (h23b c rfl) hg
      refine ⟨s', ?_, hInv', (Extends2.of_paint hpaint hother).mono (by omega), hneg⟩
      rw [lateCases, h32ok]
      simp only [ebind_ok]
      rw [optCase_none, h23ok]
      simp only [ebind_ok]
      rw [optCase_some]
      exact hok
    | none =>
      cases c1col with
      | some fc =>
        have hfc := hw1 fc rfl
        cases c2col with
        | some sc =>
          have hsc := hw2 sc rfl
          obtain ⟨s', hok, hInv', hext, hneg⟩ :=
            @twoTwoCase_spec n s g child1 child2 tc.colors[fc] tc.colors[sc]
              hInv hg
          refine ⟨s', ?_, hInv', hext, hneg⟩
          rw [lateCases, h32ok]
          simp only [ebind_ok]
          rw [optCase_none, h23ok]
          simp only [ebind_ok]
          rw [optCase_none, optCase_some, optCase_some, listAt_ok hfc]
          simp only [ebind_ok]
          rw [listAt_ok hsc]
          simp only [ebind_ok]
          exact hok
        | none =>
          obtain ⟨c, s', hok, hInv', hpt, hneg, hother⟩ :=
            paintTriple_spec hInv hg tc.colors[fc].first_parent
              tc.colors[fc].second_parent child2
          refine ⟨s', ?_, hInv', (Extends2.of_paint hpt.1 hother).mono (by omega), hneg⟩
          rw [lateCases, h32ok]
          simp only [ebind_ok]
          rw [optCase_none, h23ok]
          simp only [ebind_ok]
          rw [optCase_none, optCase_some, optCase_none, listAt_ok hfc]
          simp only [ebind_ok]
          exact hok
      | none =>
        cases c2col with
        | some sc =>
          have hsc := hw2 sc rfl
          obtain ⟨c, s', hok, hInv', hpt, hneg, hother⟩ :=
            paintTriple_spec hInv hg tc.colors[sc].first_parent
              tc.colors[sc].second_parent child1
          refine ⟨s', ?_, hInv', (Extends2.of_paint hpt.1 hother).mono (by omega), hneg⟩
          rw [lateCases, h32ok]
          simp only [ebind_ok]
          rw [optCase_none, h23ok]
          simp only [ebind_ok]
          rw [optCase_none, optCase_none, optCase_some, listAt_ok hsc]
          simp only [ebind_ok]
          exact hok
        | none => exact absurd ⟨rfl, rfl⟩ hnb

/-- Specification of `afterScan`: with in-range scan results it succeeds,
preserves the invariant, paints at most two colors on `g` and keeps the
negation users. -/
theorem afterScan_spec {n : Nat} {tc : TwoColoring} {s : ThreeColoring}
    {g child1 child2 : GateId} (c1col c2col : Option ColorId)
    (common : List ColorId) (t13 t31 : Option ColorId) (hInv : Inv n s)
    (hg : g < s.gateColors.length)
    (hc1 : child1 < s.gateColors.length) (hc2 : child2 < s.gateColors.length)
    (hw1 : ∀ c, c1col = some c → c < tc.colors.length)
    (hw2 : ∀ c, c2col = some c → c < tc.colors.length)
    (hnb : ¬(c1col = none ∧ c2col = none))
    (hcb : ∀ c ∈ common, c < s.colors.length)
    (h13 : ∀ c, t13 = some c → c < s.colors.length)
    (h31 : ∀ c, t31 = some c → c < s.colors.length) :
    ∃ s', afterScan tc s g child1 child2 c1col c2col common t13 t31 = .ok s' ∧
      Inv n s' ∧ Extends2 g 2 s s' ∧ s'.negationUsers = s.negationUsers := by
  by_cases hl2 : common.length = 2
  · obtain ⟨s1, hok1, hInv1, hclen1, _, hneg1, hpaint1, hother1, _⟩ :=
      paintGate_spec (c := common.getD 0 0) hInv (getD_lt_of_forall hcb (by omega)) hg
    have hg1 : g < s1.gateColors.length := by
      rw [hInv1.gc_len, ← hInv.gc_len]; exact hg
    obtain ⟨s2, hok2, hInv2, hclen2, _, hneg2, hpaint2, hother2, _⟩ :=
      paintGate_spec (c := common.getD 1 0) hInv1
        (by rw [hclen1]; exact getD_lt_of_forall hcb (by omega)) hg1
    refine ⟨s2, ?_, hInv2,
      (Extends2.of_paint hpaint1 hother1).trans (Extends2.of_paint hpaint2 hother2),
      by rw [hneg2, hneg1]⟩
    rw [afterScan, if_pos hl2, hok1]
    simp only [ebind_ok]
    exact hok2
  · by_cases hl1 : common.length = 1
    · obtain ⟨s1, hok1, hInv1, hclen1, _, hneg1, hpaint1, hother1, _⟩ :=
        paintGate_spec (c := common.getD 0 0) hInv (getD_lt_of_forall hcb (by omega)) hg
      have hg1 : g < s1.gateColors.length := by
        rw [hInv1.gc_len, ← hInv.gc_len]; exact hg
      have hfin : ∃ s2, optCase t13 (fun c => paintGate s1 g c)
          (optCase t31 (fun c => paintGate s1 g c) (.ok s1)) = .ok s2 ∧
          Inv n s2 ∧ Extends2 g 1 s1 s2 ∧ s2.negationUsers = s1.negationUsers := by
        cases t13 with
        | some c =>
          obtain ⟨s2, hok2, hInv2, _, _, hneg2, hpaint2, hother2, _⟩ :=
            paintGate_spec hInv1 (by rw [hclen1]; exact h13 c rfl) hg1
          exact ⟨s2, by rw [optCase_some]; exact hok2, hInv2,
            Extends2.of_paint hpaint2 hother2, hneg2⟩
        | none =>
          cases t31 with
          | some c =>
            obtain ⟨s2, hok2, hInv2, _, _, hneg2, hpaint2, hother2, _⟩ :=
              paintGate_spec hInv1 (by rw [hclen1]; exact h31 c rfl) hg1
            exact ⟨s2, by rw [optCase_none, optCase_some]; exact hok2, hInv2,
              Extends2.of_paint hpaint2 hother2, hneg2⟩
          | none =>
            exact ⟨s1, by rw [optCase_none, optCase_none], hInv1,
              Extends2.refl g 1 s1, rfl⟩
      obtain ⟨s2, hok2, hInv2, hext2, hneg2⟩ := hfin
      refine ⟨s2, ?_, hInv2,
        (Extends2.of_paint hpaint1 hother1).trans hext2, by rw [hneg2, hneg1]⟩
      rw [afterScan, if_neg hl2, if_pos hl1, hok1]
      simp only [ebind_ok]
      exact hok2
    · cases t13 with
      | some c13 =>
        obtain ⟨s1, hok1, hInv1, hclen1, _, hneg1, hpaint1, hother1, _⟩ :=
          paintGate_spec hInv (h13 c13 rfl) hg
        have hg1 : g < s1.gateColors.length := by
          rw [hInv1.gc_len, ← hInv.gc_len]; exact hg
        have hc21 : child2 < s1.gateColors.length := by
          rw [hInv1.gc_len, ← hInv.gc_len]; exact hc2
        obtain ⟨s2, hok2, hInv2, hext2, hneg2⟩ :=
          @oneThreeSecondary_spec n tc s1 g child2 c1col hInv1 hg1 hc21 hw1
        refine ⟨s2, ?_, hInv2,
          (Extends2.of_paint hpaint1 hother1).trans hext2, by rw [hneg2, hneg1]⟩
        rw [afterScan, if_neg hl2, if_neg hl1, optCase_some, hok1]
        simp only [ebind_ok]
        exact hok2
      | none =>
        cases t31 with
        | some c31 =>
          obtain ⟨s1, hok1, hInv1, hclen1, _, hneg1, hpaint1, hother1, _⟩ :=
            paintGate_spec hInv (h31 c31 rfl) hg
          have hg1 : g < s1.gateColors.length := by
            rw [hInv1.gc_len, ← hInv.gc_len]; exact hg
          have hc11 : child1 < s1.gateColors.length := by
            rw [hInv1.gc_len, ← hInv.gc_len]; exact hc1
          obtain ⟨s2, hok2, hInv2, hext2, hneg2⟩ :=
            @oneThreeSecondary_spec n tc s1 g child1 c2col hInv1 hg1 hc11 hw2
          refine ⟨s2, ?_, hInv2,
            (Extends2.of_paint hpaint1 hother1).trans hext2, by rw [hneg2, hneg1]⟩
          rw [afterScan, if_neg hl2, if_neg hl1, optCase_none, optCase_some, hok1]
          simp only [ebind_ok]
          exact hok2
        | none =>
          obtain ⟨s', hok, hInv', hext, hneg⟩ :=
            lateCases_spec c1col c2col hInv hg hc1 hc2 hw1 hw2 hnb
          refine ⟨s', ?_, hInv', hext, hneg⟩
          rw [afterScan, if_neg hl2, if_neg hl1, optCase_none, optCase_none]
          exact hok

/-- Well-formedness of the `TwoColoring` consumed by the constructor, as a
decidable check: the per-gate color table has one entry per gate, every
stored color indexes the color table, and every color's parents are gate
ids of the circuit. -/
def twoWf (n : Nat) (tc : TwoColoring) : Bool :=
  tc.gateColor.length == n &&
  tc.gateColor.all (fun oc => optCase oc (fun c => c < tc.colors.length) true) &&
  tc.colors.all (fun t => t.first_parent < n && t.second_parent < n)

theorem twoWf_len {n : Nat} {tc : TwoColoring} (h : twoWf n tc = true) :
    tc.gateColor.length = n := by
  simp only [twoWf, Bool.and_eq_true, beq_iff_eq] at h
  exact h.1.1

theorem twoWf_entry {n : Nat} {tc : TwoColoring} (h : twoWf n tc = true)
    {oc : Option ColorId} (hmem : oc ∈ tc.gateColor) {c : ColorId}
    (hc : oc = some c) : c < tc.colors.length := by
  simp only [twoWf, Bool.and_eq_true, List.all_eq_true] at h
  have := h.1.2 oc hmem
  rw [hc, optCase_some] at this
  exact of_decide_eq_true this

theorem twoWf_parents {n : Nat} {tc : TwoColoring} (h : twoWf n tc = true)
    {t : TwoColor} (hmem : t ∈ tc.colors) :
    t.first_parent < n ∧ t.second_parent < n := by
  simp only [twoWf, Bool.and_eq_true, List.all_eq_true] at h
  have := h.2 t hmem
  simp only [Bool.and_eq_true, decide_eq_true_eq] at this
  exact this

/-- Well-formedness of the circuit interface: every operand of a gate of the
circuit is a gate id of the circuit (reducible, so concrete instances stay
decidable). -/
abbrev CircuitWf (circ : Circuit) : Prop :=
  ∀ g, g < circ.size → ∀ a ∈ circ.operands g, a < circ.size

/-- Specification of the binary branch: it succeeds, preserves the
invariant, paints at most two colors on `g` and keeps the negation users. -/
theorem binaryStep_spec {n : Nat} {tc : TwoColoring} {s : ThreeColoring}
    {g : GateId} (hInv : Inv n s) (htw : twoWf n tc = true) (hg : g < n) :
    ∃ s', binaryStep tc s g = .ok s' ∧ Inv n s' ∧ Extends2 g 2 s s' ∧
      s'.negationUsers = s.negationUsers := by
  have hglen : g < tc.gateColor.length := by rw [twoWf_len htw]; exact hg
  cases hoc : tc.gateColor[g] with
  | none =>
    refine ⟨s, ?_, hInv, Extends2.refl g 2 s, rfl⟩
    rw [binaryStep, listAt_ok hglen, hoc]
    simp only [ebind_ok]
    rw [optCase_none]
  | some twoc =>
    have htwoc : twoc < tc.colors.length :=
      twoWf_entry htw (hoc ▸ List.getElem_mem hglen) rfl
    have hpar := twoWf_parents htw (List.getElem_mem htwoc)
    have hch1 : tc.colors[twoc].first_parent < tc.gateColor.length := by
      rw [twoWf_len htw]; exact hpar.1
    have hch2 : tc.colors[twoc].second_parent < tc.gateColor.length := by
      rw [twoWf_len htw]; exact hpar.2
    have hch1s : tc.colors[twoc].first_parent < s.gateColors.length := by
      rw [hInv.gc_len]; exact hpar.1
    have hch2s : tc.colors[twoc].second_parent < s.gateColors.length := by
      rw [hInv.gc_len]; exact hpar.2
    have hgs : g < s.gateColors.length := by rw [hInv.gc_len]; exact hg
    have hw1 : ∀ c, tc.gateColor[tc.colors[twoc].first_parent] = some c →
        c < tc.colors.length := fun c hc =>
      twoWf_entry htw (hc ▸ List.getElem_mem hch1) rfl
    have hw2 : ∀ c, tc.gateColor[tc.colors[twoc].second_parent] = some c →
        c < tc.colors.length := fun c hc =>
      twoWf_entry htw (hc ▸ List.getElem_mem hch2) rfl
    by_cases hbn : tc.gateColor[tc.colors[twoc].first_parent] = none ∧
        tc.gateColor[tc.colors[twoc].second_parent] = none
    · refine ⟨s, ?_, hInv, Extends2.refl g 2 s, rfl⟩
      rw [binaryStep, listAt_ok hglen, hoc]
      simp only [ebind_ok]
      rw [optCase_some, listAt_ok htwoc]
      simp only [ebind_ok]
      rw [listAt_ok hch1]
      simp only [ebind_ok]
      rw [listAt_ok hch2]
      simp only [ebind_ok]
      rw [if_pos hbn]
    · obtain ⟨cc, t13, t31, hokc, hccb, h13b, h31b⟩ :=
        collectPatterns_spec hInv hch1s hch2s
      obtain ⟨s', hok, hInv', hext, hneg⟩ :=
        @afterScan_spec n tc s g tc.colors[twoc].first_parent
          tc.colors[twoc].second_parent
          tc.gateColor[tc.colors[twoc].first_parent]
          tc.gateColor[tc.colors[twoc].second_parent] cc t13 t31
          hInv hgs hch1s hch2s hw1 hw2 hbn hccb h13b h31b
      refine ⟨s', ?_, hInv', hext, hneg⟩
      rw [binaryStep, listAt_ok hglen, hoc]
      simp only [ebind_ok]
      rw [optCase_some, listAt_ok htwoc]
      simp only [ebind_ok]
      rw [listAt_ok hch1]
      simp only [ebind_ok]
      rw [listAt_ok hch2]
      simp only [ebind_ok]
      rw [if_neg hbn, hokc]
      simp only [ebind_ok]
      exact hok

/-- Specification of one full loop iteration on a gate with at most two
operands that has not been painted yet: it succeeds, preserves the
invariant and the 2-color bound, and only gate `g`'s color list changes. -/
theorem threeStep_ok {circ : Circuit} {tc : TwoColoring} {s : ThreeColoring}
    {g : GateId} (hInv : Inv circ.size s) (hcw : CircuitWf circ)
    (htw : twoWf circ.size tc = true) (hg : g < circ.size)
    (hops : (circ.operands g).length ≤ 2) (hempty : gcAt s g = [])
    (hb2 : ∀ g', (gcAt s g').length ≤ 2) :
    ∃ s', threeStep circ tc s g = .ok s' ∧ Inv circ.size s' ∧
      (∀ g', g' ≠ g → gcAt s' g' = gcAt s g') ∧
      (∀ g', (gcAt s' g').length ≤ 2) := by
  by_cases hemp : (circ.operands g).isEmpty
  · exact ⟨s, by rw [threeStep, if_pos hemp], hInv, fun _ _ => rfl, hb2⟩
  · by_cases hone : (circ.operands g).length = 1
    · have hgs : g < s.gateColors.length := by rw [hInv.gc_len]; exact hg
      have hmem : (circ.operands g).getD 0 0 ∈ circ.operands g := by
        have h0 : 0 < (circ.operands g).length := by omega
        have he : (circ.operands g).getD 0 0 = (circ.operands g)[0] := by
          simp [List.getD_eq_getElem?_getD, List.getElem?_eq_getElem h0]
        rw [he]
        exact List.getElem_mem h0
      have has : (circ.operands g).getD 0 0 < s.gateColors.length := by
        rw [hInv.gc_len]
        exact hcw g hg _ hmem
      obtain ⟨s', hok, hInv', hclen, hmap, hpaint, hother, _, _⟩ :=
        unaryStep_spec circ hInv hgs has
      refine ⟨s', ?_, hInv', hother, ?_⟩
      · rw [threeStep, if_neg hemp, if_pos hone]
        exact hok
      · intro g'
        by_cases hne : g' = g
        · rw [hne, hpaint, hempty]
          simpa using hb2 ((circ.operands g).getD 0 0)
        · rw [hother g' hne]
          exact hb2 g'
    · have htwo : (circ.operands g).length = 2 := by
        have : ¬(circ.operands g).length = 0 := by
          intro h
          exact hemp (List.isEmpty_iff_length_eq_zero.mpr h)
        omega
      obtain ⟨s', hok, hInv', ⟨⟨l, hl, hlk⟩, hother⟩, hneg⟩ :=
        binaryStep_spec hInv htw hg
      refine ⟨s', ?_, hInv', hother, ?_⟩
      · rw [threeStep, if_neg hemp, if_neg hone, if_neg (by omega)]
        exact hok
      · intro g'
        by_cases hne : g' = g
        · rw [hne, hl, hempty]
          simpa using hlk
        · rw [hother g' hne]
          exact hb2 g'

/-- A gate with more than two operands aborts its iteration at once. -/
theorem threeStep_nonbinary {circ : Circuit} {tc : TwoColoring}
    {s : ThreeColoring} {g : GateId} (hb : 2 < (circ.operands g).length) :
    threeStep circ tc s g = .error (.nonBinary g) := by
  have hne : ¬(circ.operands g).isEmpty := by
    intro h
    rw [List.isEmpty_iff_length_eq_zero] at h
    omega
  rw [threeStep, if_neg hne, if_neg (by omega), if_pos hb]

/-- Folding the constructor step over a duplicate-free list of in-range,
not-yet-painted gates with at most two operands each succeeds and keeps the
invariant and the 2-color bound. -/
theorem runFold_ok {circ : Circuit} {tc : TwoColoring} (hcw : CircuitWf circ)
    (htw : twoWf circ.size tc = true) :
    ∀ (order : List GateId) (s : ThreeColoring), Inv circ.size s →
    (∀ g ∈ order, g < circ.size) → order.Nodup →
    (∀ g ∈ order, gcAt s g = []) →
    (∀ g', (gcAt s g').length ≤ 2) →
    (∀ g ∈ order, (circ.operands g).length ≤ 2) →
    ∃ s', List.foldlM (threeStep circ tc) s order = .ok s' ∧
      Inv circ.size s' ∧ (∀ g', (gcAt s' g').length ≤ 2) := by
  intro order
  induction order with
  | nil =>
    intro s hInv _ _ _ hb2 _
    exact ⟨s, rfl, hInv, hb2⟩
  | cons g rest ih =>
    intro s hInv hbnd hnd hemp hb2 hop
    obtain ⟨s1, hok1, hInv1, hother1, hb21⟩ :=
      threeStep_ok hInv hcw htw (hbnd g (by simp)) (hop g (by simp))
        (hemp g (by simp)) hb2
    have hnd1 := List.nodup_cons.mp hnd
    obtain ⟨s', hok, hInv', hb2'⟩ := ih s1 hInv1
      (fun g' h => hbnd g' (by simp [h])) hnd1.2
      (fun g' h => by
        rw [hother1 g' (fun he => hnd1.1 (he ▸ h))]
        exact hemp g' (by simp [h]))
      hb21 (fun g' h => hop g' (by simp [h]))
    refine ⟨s', ?_, hInv', hb2'⟩
    rw [List.foldlM_cons, hok1]
    exact hok

/-- Folding the constructor step over a list containing a gate with more
than two operands ends in the non-binary abort, naming such a gate. -/
theorem runFold_err {circ : Circuit} {tc : TwoColoring} (hcw : CircuitWf circ)
    (htw : twoWf circ.size tc = true) :
    ∀ (order : List GateId) (s : ThreeColoring), Inv circ.size s →
    (∀ g ∈ order, g < circ.size) → order.Nodup →
    (∀ g ∈ order, gcAt s g = []) →
    (∀ g', (gcAt s g').length ≤ 2) →
    (∃ g ∈ order, 2 < (circ.operands g).length) →
    ∃ g, List.foldlM (threeStep circ tc) s order = .error (.nonBinary g) ∧
      g ∈ order ∧ 2 < (circ.operands g).length := by
  intro order
  induction order with
  | nil =>
    intro s _ _ _ _ _ hex
    simp at hex
  | cons g rest ih =>
    intro s hInv hbnd hnd hemp hb2 hex
    by_cases hbad : 2 < (circ.operands g).length
    · refine ⟨g, ?_, by simp, hbad⟩
      rw [List.foldlM_cons, threeStep_nonbinary hbad]
      rfl
    · obtain ⟨s1, hok1, hInv1, hother1, hb21⟩ :=
        threeStep_ok hInv hcw htw (hbnd g (by simp)) (by omega)
          (hemp g (by simp)) hb2
      have hnd1 := List.nodup_cons.mp hnd
      have hex1 : ∃ g' ∈ rest, 2 < (circ.operands g').length := by
        obtain ⟨g', hg', hbg'⟩ := hex
        rcases List.mem_cons.mp hg' with h | h
        · exact absurd (h ▸ hbg') hbad
        · exact ⟨g', h, hbg'⟩
      obtain ⟨gbad, hok, hmem, hb⟩ := ih s1 hInv1
        (fun g' h => hbnd g' (by simp [h])) hnd1.2
        (fun g' h => by
          rw [hother1 g' (fun he => hnd1.1 (he ▸ h))]
          exact hemp g' (by simp [h]))
        hb21 hex1
      refine ⟨gbad, ?_, by simp [hmem], hb⟩
      rw [List.foldlM_cons, hok1]
      exact hok

/-! ### Claim theorems for the `ThreeColoring` constructor -/

/-- C1: for every valid circuit (a DAG of gates with at most two operands
each, listed once each by the processing order), after the `ThreeColoring`
constructor completes, every gate's list of ThreeColor ColorIds has length
at most 2. -/
theorem C1_gate_carries_at_most_two_colors {circ : Circuit} {tc : TwoColoring}
    {order : List GateId} {s' : ThreeColoring}
    (hcw : CircuitWf circ) (htw : twoWf circ.size tc = true)
    (hbnd : ∀ g ∈ order, g < circ.size) (hnd : order.Nodup)
    (hops : ∀ g ∈ order, (circ.operands g).length ≤ 2)
    (hrun : threeColoringRun circ tc order = .ok s') :
    ∀ g, (gcAt s' g).length ≤ 2 := by
  obtain ⟨s'', hok, hInv, hb2⟩ := runFold_ok hcw htw order (initState circ.size)
    (Inv.init circ.size) hbnd hnd (fun g _ => gcAt_replicate circ.size g rfl)
    (fun g => by rw [gcAt_replicate circ.size g rfl]; simp) hops
  rw [threeColoringRun] at hrun
  rw [hrun] at hok
  cases hok
  exact hb2

/-- C5: after the constructor completes on a valid circuit, `parentsToColor`
is a bijection between its keys and the index set of `colors`: distinct keys
map to distinct ColorIds, every bound ColorId is in range, every index is
the image of exactly one key, and the key of index `c` is the sorted parent
triple of `colors[c]`. -/
theorem C5_parents_to_color_bijection {circ : Circuit} {tc : TwoColoring}
    {order : List GateId} {s' : ThreeColoring}
    (hcw : CircuitWf circ) (htw : twoWf circ.size tc = true)
    (hbnd : ∀ g ∈ order, g < circ.size) (hnd : order.Nodup)
    (hops : ∀ g ∈ order, (circ.operands g).length ≤ 2)
    (hrun : threeColoringRun circ tc order = .ok s') :
    (∀ k1 k2 c, mapFind? s'.parentsToColor k1 = some c →
      mapFind? s'.parentsToColor k2 = some c → k1 = k2) ∧
    (∀ k c, mapFind? s'.parentsToColor k = some c → c < s'.colors.length) ∧
    (∀ c t, s'.colors[c]? = some t →
      mapFind? s'.parentsToColor (parentsKey t) = some c ∧
      ∀ k, mapFind? s'.parentsToColor k = some c → k = parentsKey t) := by
  obtain ⟨s'', hok, hInv, _⟩ := runFold_ok hcw htw order (initState circ.size)
    (Inv.init circ.size) hbnd hnd (fun g _ => gcAt_replicate circ.size g rfl)
    (fun g => by rw [gcAt_replicate circ.size g rfl]; simp) hops
  rw [threeColoringRun] at hrun
  rw [hrun] at hok
  cases hok
  refine ⟨?_, ?_, ?_⟩
  · intro k1 k2 c h1 h2
    obtain ⟨t1, ht1, hk1⟩ := hInv.map_keys k1 c h1
    obtain ⟨t2, ht2, hk2⟩ := hInv.map_keys k2 c h2
    rw [ht1] at ht2
    cases ht2
    rw [← hk1, hk2]
  · intro k c h
    obtain ⟨t, ht, _⟩ := hInv.map_keys k c h
    exact lt_length_of_getElem?_eq_some ht
  · intro c t ht
    refine ⟨hInv.map_surj c t ht, ?_⟩
    intro k hk
    obtain ⟨t', ht', hk'⟩ := hInv.map_keys k c hk
    rw [ht] at ht'
    cases ht'
    exact hk'.symm

/-- C6: on a valid circuit whose processing order covers every gate once,
the constructor aborts naming a gate with more than two operands exactly
when the circuit contains such a gate; when every gate has at most two
operands, construction runs to completion. -/
theorem C6_nonbinary_gate_aborts {circ : Circuit} {tc : TwoColoring}
    {order : List GateId}
    (hcw : CircuitWf circ) (htw : twoWf circ.size tc = true)
    (hbnd : ∀ g ∈ order, g < circ.size) (hnd : order.Nodup)
    (hcov : ∀ g, g < circ.size → g ∈ order) :
    ((∃ g, g < circ.size ∧ 2 < (circ.operands g).length) →
      ∃ g, threeColoringRun circ tc order = .error (.nonBinary g) ∧
        g < circ.size ∧ 2 < (circ.operands g).length) ∧
    ((∀ g, g < circ.size → (circ.operands g).length ≤ 2) →
      ∃ s', threeColoringRun circ tc order = .ok s') := by
  constructor
  · intro ⟨g, hgs, hbad⟩
    obtain ⟨gbad, hrun, hmem, hb⟩ := runFold_err hcw htw order (initState circ.size)
      (Inv.init circ.size) hbnd hnd (fun g' _ => gcAt_replicate circ.size g' rfl)
      (fun g' => by rw [gcAt_replicate circ.size g' rfl]; simp)
      ⟨g, hcov g hgs, hbad⟩
    exact ⟨gbad, hrun, hbnd gbad hmem, hb⟩
  · intro hall
    obtain ⟨s', hok, _, _⟩ := runFold_ok hcw htw order (initState circ.size)
      (Inv.init circ.size) hbnd hnd (fun g _ => gcAt_replicate circ.size g rfl)
      (fun g => by rw [gcAt_replicate circ.size g rfl]; simp)
      (fun g hmem => hall g (hbnd g hmem))
    exact ⟨s', hok⟩

/-- C9: on a valid circuit (every gate has at most two operands, operand
ids valid, well-formed two-coloring), every bounds-checked access performed
by the constructor succeeds: the run neither throws `std::out_of_range` nor
aborts, it completes normally. -/
theorem C9_checked_accesses_never_fail {circ : Circuit} {tc : TwoColoring}
    {order : List GateId}
    (hcw : CircuitWf circ) (htw : twoWf circ.size tc = true)
    (hbnd : ∀ g ∈ order, g < circ.size) (hnd : order.Nodup)
    (hops : ∀ g ∈ order, (circ.operands g).length ≤ 2) :
    (∃ s', threeColoringRun circ tc order = .ok s') ∧
    ∀ e : CErr, threeColoringRun circ tc order ≠ .error e := by
  obtain ⟨s', hok, _, _⟩ := runFold_ok hcw htw order (initState circ.size)
    (Inv.init circ.size) hbnd hnd (fun g _ => gcAt_replicate circ.size g rfl)
    (fun g => by rw [gcAt_replicate circ.size g rfl]; simp) hops
  refine ⟨⟨s', hok⟩, ?_⟩
  intro e he
  rw [threeColoringRun] at he
  rw [hok] at he
  exact Except.noConfusion he

/-! ### Concrete instances used by the witnesses -/

/-- Example circuit: inputs 0-3, gate 4 = AND(0,1), gate 5 = AND(2,3),
gate 6 = AND(4,5). -/
def exCircuit : Circuit :=
  { size := 7
    operands := fun g =>
      if g = 4 then [0, 1] else if g = 5 then [2, 3] else if g = 6 then [4, 5] else []
    gateType := fun _ => GateType.AND }

/-- The two-coloring of `exCircuit`: colors (0,1), (2,3), (4,5) painted on
gates 4, 5, 6 respectively. -/
def exTwo : TwoColoring :=
  { colors := [⟨0, 1⟩, ⟨2, 3⟩, ⟨4, 5⟩]
    gateColor := [none, none, none, none, some 0, some 1, some 2] }

/-- The processing order of `exCircuit` (the reversed DFS topological
sort). -/
def exOrder : List GateId := [0, 1, 2, 3, 4, 5, 6]

/-- The constructor state the run on `exCircuit` produces. -/
def exResult : ThreeColoring :=
  { colors := [⟨0, 1, 5, [6]⟩, ⟨2, 3, 4, [6]⟩]
    gateColors := [[], [], [], [], [], [], [0, 1]]
    parentsToColor := [([0, 1, 5], 0), ([2, 3, 4], 1)]
    negationUsers := List.replicate 7 none
    next_color_id := 2 }

/-- Example circuit with a non-binary gate: inputs 0-3 and
gate 4 = AND(0,1,2). -/
def exBadCircuit : Circuit :=
  { size := 5
    operands := fun g => if g = 4 then [0, 1, 2] else []
    gateType := fun _ => GateType.AND }

/-- A trivial two-coloring for `exBadCircuit` (no gate colored). -/
def exBadTwo : TwoColoring :=
  { colors := []
    gateColor := List.replicate 5 none }

/-- Witness for C1: the hypotheses hold for `exCircuit` with its
two-coloring and order, and the theorem applies to the resulting state. -/
theorem C1_witness : (gcAt exResult 6).length ≤ 2 :=
  @C1_gate_carries_at_most_two_colors exCircuit exTwo exOrder exResult
    (by decide) (by decide) (by decide) (by decide) (by decide)
    (by rfl) 6

/-- Witness for C5 at the run on `exCircuit`. -/
theorem C5_witness :
    (∀ k1 k2 c, mapFind? exResult.parentsToColor k1 = some c →
      mapFind? exResult.parentsToColor k2 = some c → k1 = k2) ∧
    (∀ k c, mapFind? exResult.parentsToColor k = some c →
      c < exResult.colors.length) ∧
    (∀ c t, exResult.colors[c]? = some t →
      mapFind? exResult.parentsToColor (parentsKey t) = some c ∧
      ∀ k, mapFind? exResult.parentsToColor k = some c → k = parentsKey t) :=
  @C5_parents_to_color_bijection exCircuit exTwo exOrder exResult
    (by decide) (by decide) (by decide) (by decide) (by decide)
    (by rfl)

/-- Witness for C6 at `exBadCircuit` (which has a 3-operand gate). -/
theorem C6_witness :
    ((∃ g, g < exBadCircuit.size ∧ 2 < (exBadCircuit.operands g).length) →
      ∃ g, threeColoringRun exBadCircuit exBadTwo [0, 1, 2, 3, 4]
          = .error (.nonBinary g) ∧
        g < exBadCircuit.size ∧ 2 < (exBadCircuit.operands g).length) ∧
    ((∀ g, g < exBadCircuit.size → (exBadCircuit.operands g).length ≤ 2) →
      ∃ s', threeColoringRun exBadCircuit exBadTwo [0, 1, 2, 3, 4] = .ok s') :=
  C6_nonbinary_gate_aborts
    (by decide) (by decide) (by decide) (by decide) (by decide)

/-- Witness for C9 at the run on `exCircuit`. -/
theorem C9_witness :
    (∃ s', threeColoringRun exCircuit exTwo exOrder = .ok s') ∧
    ∀ e : CErr, threeColoringRun exCircuit exTwo exOrder ≠ .error e :=
  C9_checked_accesses_never_fail
    (by decide) (by decide) (by decide) (by decide) (by decide)

/-- C8: a unary gate `g` with operand `a`, processed while still unpainted,
is painted with exactly the ColorIds `a` carries at that moment (inherited
verbatim, in order); `negationUsers[a]` is set to `g` exactly when `g` is a
`NOT` gate, and non-`NOT` unary gates leave `negationUsers` unchanged. -/
theorem C8_unary_inherits_verbatim {n : Nat} {circ : Circuit} {tc : TwoColoring}
    {s : ThreeColoring} {g a : GateId}
    (hInv : Inv n s) (hop : circ.operands g = [a]) (hg : g < n) (ha : a < n)
    (hempty : gcAt s g = []) :
    ∃ s', threeStep circ tc s g = .ok s' ∧
      gcAt s' g = gcAt s a ∧
      (circ.gateType g = GateType.NOT →
        s'.negationUsers = s.negationUsers.set a (some g)) ∧
      (circ.gateType g ≠ GateType.NOT → s'.negationUsers = s.negationUsers) := by
  have hgs : g < s.gateColors.length := by rw [hInv.gc_len]; exact hg
  have has : a < s.gateColors.length := by rw [hInv.gc_len]; exact ha
  obtain ⟨s', hok, hInv', hclen, hmap, hpaint, hother, hnot, hnnot⟩ :=
    unaryStep_spec circ hInv hgs has
  refine ⟨s', ?_, by rw [hpaint, hempty]; simp, hnot, hnnot⟩
  rw [threeStep, if_neg (by simp [hop]), if_pos (by simp [hop])]
  rw [show (circ.operands g).getD 0 0 = a by simp [hop]]
  exact hok

/-- C10: a binary gate `g` whose `TwoColor`'s two parents both carry the
no-color sentinel in the two-coloring table is skipped: its iteration
returns the state unchanged, so it gets no `ThreeColor` at all. -/
theorem C10_both_children_uncolored_skip {circ : Circuit} {tc : TwoColoring}
    {s : ThreeColoring} {g : GateId} {twoc : ColorId} {tcol : TwoColor}
    (hop : (circ.operands g).length = 2)
    (h1 : tc.gateColor[g]? = some (some twoc))
    (h2 : tc.colors[twoc]? = some tcol)
    (h3 : tc.gateColor[tcol.first_parent]? = some none)
    (h4 : tc.gateColor[tcol.second_parent]? = some none) :
    threeStep circ tc s g = .ok s := by
  have hne : ¬(circ.operands g).isEmpty := by
    intro h
    rw [List.isEmpty_iff_length_eq_zero] at h
    omega
  rw [threeStep, if_neg hne, if_neg (by omega), if_neg (by omega)]
  rw [binaryStep, listAt_ok_iff.mpr h1]
  simp only [ebind_ok]
  rw [optCase_some, listAt_ok_iff.mpr h2]
  simp only [ebind_ok]
  rw [listAt_ok_iff.mpr h3]
  simp only [ebind_ok]
  rw [listAt_ok_iff.mpr h4]
  simp only [ebind_ok]
  simp

/-- Example circuit with a negation: input 0 and gate 1 = NOT(0). -/
def exNotCircuit : Circuit :=
  { size := 2
    operands := fun g => if g = 1 then [0] else []
    gateType := fun g => if g = 1 then GateType.NOT else GateType.INPUT }

/-- The (empty) two-coloring of `exNotCircuit`. -/
def exNotTwo : TwoColoring :=
  { colors := []
    gateColor := [none, none] }

/-- Witness for C8 at the `NOT` gate of `exNotCircuit`. -/
theorem C8_witness :
    ∃ s', threeStep exNotCircuit exNotTwo (initState 2) 1 = .ok s' ∧
      gcAt s' 1 = gcAt (initState 2) 0 ∧
      (exNotCircuit.gateType 1 = GateType.NOT →
        s'.negationUsers = (initState 2).negationUsers.set 0 (some 1)) ∧
      (exNotCircuit.gateType 1 ≠ GateType.NOT →
        s'.negationUsers = (initState 2).negationUsers) :=
  @C8_unary_inherits_verbatim 2 exNotCircuit exNotTwo (initState 2) 1 0
    (Inv.init 2) (by decide) (by decide) (by decide) (by decide)

/-- Witness for C10 at gate 4 of `exCircuit`, whose two-color parents 0 and
1 are uncolored. -/
theorem C10_witness :
    threeStep exCircuit exTwo (initState 7) 4 = .ok (initState 7) :=
  @C10_both_children_uncolored_skip exCircuit exTwo (initState 7) 4 0 ⟨0, 1⟩
    (by decide) (by decide) (by decide) (by decide) (by decide)

/-- C4: for a binary gate `g` reaching the 2-2 case — its `TwoColor` has
parents `child_1`, `child_2` whose own `TwoColor`s carry parent pairs
`(p1,p2)` and `(p3,p4)`, the children share no common color, and the
3-1/1-3/3-2/2-3 scans all miss — the gate is painted as follows: when
`(p3,p4)` contains `p1`, with exactly the one color of triple `(p2,p3,p4)`;
when it contains `p2`, with exactly the one color of triple `(p1,p3,p4)`;
otherwise with exactly the two colors of triples `(p1,p2,child_2)` and
`(p3,p4,child_1)`; in each case the triple is created only if not already
bound in `parentsToColor`. -/
theorem C4_two_two_case {n : Nat} {circ : Circuit} {tc : TwoColoring}
    {s : ThreeColoring} {g : GateId} {twoc fc sc : ColorId}
    {tcol fcol scol : TwoColor}
    (hInv : Inv n s) (hg : g < s.gateColors.length)
    (hop : (circ.operands g).length = 2)
    (h1 : tc.gateColor[g]? = some (some twoc))
    (h2 : tc.colors[twoc]? = some tcol)
    (h3 : tc.gateColor[tcol.first_parent]? = some (some fc))
    (h4 : tc.gateColor[tcol.second_parent]? = some (some sc))
    (h6 : tc.colors[fc]? = some fcol)
    (h7 : tc.colors[sc]? = some scol)
    (h5 : collectPatterns s tcol.first_parent tcol.second_parent
      = .ok ([], none, none))
    (h8 : scanForPair s.colors s.gateColors tcol.first_parent
      scol.first_parent scol.second_parent = .ok none)
    (h9 : scanForPair s.colors s.gateColors tcol.second_parent
      fcol.first_parent fcol.second_parent = .ok none) :
    (scol.hasParent fcol.first_parent = true →
      ∃ c s', threeStep circ tc s g = .ok s' ∧
        PaintedTriple s s' g (ThreeColor.sortedParents fcol.second_parent
          scol.first_parent scol.second_parent) c) ∧
    (scol.hasParent fcol.first_parent = false →
      scol.hasParent fcol.second_parent = true →
      ∃ c s', threeStep circ tc s g = .ok s' ∧
        PaintedTriple s s' g (ThreeColor.sortedParents fcol.first_parent
          scol.first_parent scol.second_parent) c) ∧
    (scol.hasParent fcol.first_parent = false →
      scol.hasParent fcol.second_parent = false →
      ∃ c1 s1 c2 s', threeStep circ tc s g = .ok s' ∧
        PaintedTriple s s1 g (ThreeColor.sortedParents fcol.first_parent
          fcol.second_parent tcol.second_parent) c1 ∧
        PaintedTriple s1 s' g (ThreeColor.sortedParents scol.first_parent
          scol.second_parent tcol.first_parent) c2) := by
  have hne : ¬(circ.operands g).isEmpty := by
    intro h
    rw [List.isEmpty_iff_length_eq_zero] at h
    omega
  have hred : threeStep circ tc s g
      = twoTwoCase s g tcol.first_parent tcol.second_parent fcol scol := by
    rw [threeStep, if_neg hne, if_neg (by omega), if_neg (by omega)]
    rw [binaryStep, listAt_ok_iff.mpr h1]
    simp only [ebind_ok]
    rw [optCase_some, listAt_ok_iff.mpr h2]
    simp only [ebind_ok]
    rw [listAt_ok_iff.mpr h3]
    simp only [ebind_ok]
    rw [listAt_ok_iff.mpr h4]
    simp only [ebind_ok]
    rw [if_neg (by simp), h5]
    simp only [ebind_ok]
    rw [afterScan, if_neg (by simp), if_neg (by simp), optCase_none, optCase_none]
    rw [lateCases, optCase_some, listAt_ok_iff.mpr h7]
    simp only [ebind_ok]
    rw [h8]
    simp only [ebind_ok]
    rw [optCase_none, optCase_some, listAt_ok_iff.mpr h6]
    simp only [ebind_ok]
    rw [h9]
    simp only [ebind_ok]
    rw [optCase_none, optCase_some, optCase_some, listAt_ok_iff.mpr h6]
    simp only [ebind_ok]
    rw [listAt_ok_iff.mpr h7]
    simp only [ebind_ok]
  refine ⟨?_, ?_, ?_⟩
  · intro hp1
    obtain ⟨c, s', hok, _, hpt, _, _⟩ :=
      paintTriple_spec hInv hg fcol.second_parent scol.first_parent scol.second_parent
    refine ⟨c, s', ?_, hpt⟩
    rw [hred, twoTwoCase, if_pos hp1]
    exact hok
  · intro hp1 hp2
    obtain ⟨c, s', hok, _, hpt, _, _⟩ :=
      paintTriple_spec hInv hg fcol.first_parent scol.first_parent scol.second_parent
    refine ⟨c, s', ?_, hpt⟩
    rw [hred, twoTwoCase, if_neg (by simp [hp1]), if_pos hp2]
    exact hok
  · intro hp1 hp2
    obtain ⟨c1, s1, hok1, hInv1, hpt1, _, _⟩ :=
      paintTriple_spec hInv hg fcol.first_parent fcol.second_parent tcol.second_parent
    have hg1 : g < s1.gateColors.length := by
      rw [hInv1.gc_len, ← hInv.gc_len]
      exact hg
    obtain ⟨c2, s', hok2, _, hpt2, _, _⟩ :=
      paintTriple_spec hInv1 hg1 scol.first_parent scol.second_parent tcol.first_parent
    refine ⟨c1, s1, c2, s', ?_, hpt1, hpt2⟩
    rw [hred, twoTwoCase, if_neg (by simp [hp1]), if_neg (by simp [hp2]), hok1]
    simp only [ebind_ok]
    exact hok2

/-- Witness for C4 at gate 6 of `exCircuit`: `fcol = (0,1)` and
`scol = (2,3)` share no parent, so the third subcase applies. -/
theorem C4_witness :
    ((⟨2, 3⟩ : TwoColor).hasParent (⟨0, 1⟩ : TwoColor).first_parent = true →
      ∃ c s', threeStep exCircuit exTwo (initState 7) 6 = .ok s' ∧
        PaintedTriple (initState 7) s' 6 (ThreeColor.sortedParents
          (⟨0, 1⟩ : TwoColor).second_parent (⟨2, 3⟩ : TwoColor).first_parent
          (⟨2, 3⟩ : TwoColor).second_parent) c) ∧
    ((⟨2, 3⟩ : TwoColor).hasParent (⟨0, 1⟩ : TwoColor).first_parent = false →
      (⟨2, 3⟩ : TwoColor).hasParent (⟨0, 1⟩ : TwoColor).second_parent = true →
      ∃ c s', threeStep exCircuit exTwo (initState 7) 6 = .ok s' ∧
        PaintedTriple (initState 7) s' 6 (ThreeColor.sortedParents
          (⟨0, 1⟩ : TwoColor).first_parent (⟨2, 3⟩ : TwoColor).first_parent
          (⟨2, 3⟩ : TwoColor).second_parent) c) ∧
    ((⟨2, 3⟩ : TwoColor).hasParent (⟨0, 1⟩ : TwoColor).first_parent = false →
      (⟨2, 3⟩ : TwoColor).hasParent (⟨0, 1⟩ : TwoColor).second_parent = false →
      ∃ c1 s1 c2 s', threeStep exCircuit exTwo (initState 7) 6 = .ok s' ∧
        PaintedTriple (initState 7) s1 6 (ThreeColor.sortedParents
          (⟨0, 1⟩ : TwoColor).first_parent (⟨0, 1⟩ : TwoColor).second_parent
          (⟨4, 5⟩ : TwoColor).second_parent) c1 ∧
        PaintedTriple s1 s' 6 (ThreeColor.sortedParents
          (⟨2, 3⟩ : TwoColor).first_parent (⟨2, 3⟩ : TwoColor).second_parent
          (⟨4, 5⟩ : TwoColor).first_parent) c2) :=
  @C4_two_two_case 7 exCircuit exTwo (initState 7) 6 2 0 1 ⟨4, 5⟩ ⟨0, 1⟩ ⟨2, 3⟩
    (Inv.init 7) (by decide) (by decide) (by decide) (by decide) (by decide)
    (by decide) (by decide) (by decide) (by decide) (by decide) (by decide)

/-! ### Lemmas about the database loader -/

theorem readNat_length {s s' : List Tok} {x : Nat} (h : readNat s = some (x, s')) :
    s.length = s'.length + 1 := by
  cases s with
  | nil => simp [readNat] at h
  | cons t rest =>
    cases t with
    | num m =>
      rw [readNat] at h
      by_cases hm : (0 : Int) ≤ m
      · rw [if_pos hm] at h
        simp only [Option.some.injEq, Prod.mk.injEq] at h
        rw [← h.2]
        simp
      · rw [if_neg hm] at h
        exact Option.noConfusion h
    | str _ => simp [readNat] at h

/-- When the leading read fails, the loader loop stops and returns the
database built so far, for any fuel. -/
theorem read_db_loop_stop {s : List Tok} (h : readNat s = none)
    (fuel : Nat) (idx : Int) (db : CircuitDB) :
    read_db_loop fuel s idx db = db := by
  cases fuel with
  | zero => rfl
  | succ f =>
    rw [read_db_loop, h, optCase_none]

/-- The gate loop only appends to its accumulators. -/
theorem readGatesLoop_extends :
    ∀ (fuel : Nat) (s : List Tok) (i m : Nat) (ops : List GateType)
      (opnds : List (List Nat)) (op : Nat)
      {ops' : List GateType} {opnds' : List (List Nat)} {op' mF : Nat}
      {rest : List Tok},
    readGatesLoop fuel s i m ops opnds op = some ((ops', opnds', op', mF), rest) →
    ∃ t u, ops' = ops ++ t ∧ opnds' = opnds ++ u := by
  intro fuel
  induction fuel with
  | zero =>
    intro s i m ops opnds op ops' opnds' op' mF rest hres
    rw [readGatesLoop] at hres
    by_cases hterm : m < i
    · rw [if_pos hterm] at hres
      simp only [Option.some.injEq, Prod.mk.injEq] at hres
      exact ⟨[], [], by rw [← hres.1.1]; simp, by rw [← hres.1.2.1]; simp⟩
    · rw [if_neg hterm] at hres
      exact Option.noConfusion hres
  | succ f ih =>
    intro s i m ops opnds op ops' opnds' op' mF rest hres
    rw [readGatesLoop] at hres
    by_cases hterm : m < i
    · rw [if_pos hterm] at hres
      simp only [Option.some.injEq, Prod.mk.injEq] at hres
      exact ⟨[], [], by rw [← hres.1.1]; simp, by rw [← hres.1.2.1]; simp⟩
    · rw [if_neg hterm] at hres
      cases hq : readStr s with
      | none =>
        rw [hq, optCase_none] at hres
        exact Option.noConfusion hres
      | some q =>
        rw [hq] at hres
        simp only [optCase_some] at hres
        cases hq1 : readNat q.2 with
        | none =>
          rw [hq1, optCase_none] at hres
          exact Option.noConfusion hres
        | some q1 =>
          rw [hq1] at hres
          simp only [optCase_some] at hres
          by_cases hnot : q.1 = "NOT"
          · rw [if_pos hnot] at hres
            obtain ⟨t, u, ht, hu⟩ := ih _ _ _ _ _ _ hres
            exact ⟨stringToGateType q.1 :: t, [q1.1] :: u,
              by rw [ht]; simp, by rw [hu]; simp⟩
          · rw [if_neg hnot] at hres
            cases hq2 : readNat q1.2 with
            | none =>
              rw [hq2, optCase_none] at hres
              exact Option.noConfusion hres
            | some q2 =>
              rw [hq2] at hres
              simp only [optCase_some] at hres
              obtain ⟨t, u, ht, hu⟩ := ih _ _ _ _ _ _ hres
              exact ⟨stringToGateType q.1 :: t, [q1.1, q2.1] :: u,
                by rw [ht]; simp, by rw [hu]; simp⟩

theorem getD_append_right {α : Type} (l1 l2 : List α) (j : Nat) (d : α) :
    (l1 ++ l2).getD (l1.length + j) d = l2.getD j d := by
  rw [List.getD_eq_getElem?_getD, List.getD_eq_getElem?_getD,
    List.getElem?_append_right (by omega), Nat.add_sub_cancel_left]

/-- The maximum tracked by `readNatsMax` is the fold of `max` over the ids
read, from the initial value. -/
theorem readNatsMax_foldl :
    ∀ (k m : Nat) (s : List Tok) {xs : List Nat} {m2 : Nat} {s' : List Tok},
    readNatsMax k m s = some (xs, m2, s') → m2 = xs.foldl max m := by
  intro k
  induction k with
  | zero =>
    intro m s xs m2 s' h
    rw [readNatsMax] at h
    simp only [Option.some.injEq, Prod.mk.injEq] at h
    rw [← h.1, ← h.2.1]
    simp
  | succ k ih =>
    intro m s xs m2 s' h
    rw [readNatsMax] at h
    cases hq : readNat s with
    | none =>
      rw [hq, optCase_none] at h
      exact Option.noConfusion h
    | some q =>
      rw [hq] at h
      simp only [optCase_some] at h
      cases hq2 : readNatsMax k (max m q.1) q.2 with
      | none =>
        rw [hq2, optCase_none] at h
        exact Option.noConfusion h
      | some q2 =>
        rw [hq2] at h
        simp only [optCase_some, Option.some.injEq, Prod.mk.injEq] at h
        have hih := ih (max m q.1) q.2 hq2
        rw [← h.1, ← h.2.1]
        simpa using hih

/-- C3's core: when every gate description's operands reference earlier ids
(the DAG discipline of the format), the running `max_index` never grows, and
one gate description is parsed for each id from `inputs_number` to the
maximum output id. -/
theorem readGatesLoop_count :
    ∀ (fuel : Nat) (s : List Tok) (i m : Nat) (ops : List GateType)
      (opnds : List (List Nat)) (op : Nat) {ops' : List GateType}
      {opnds' : List (List Nat)} {op' mF : Nat} {rest : List Tok},
    readGatesLoop fuel s i m ops opnds op = some ((ops', opnds', op', mF), rest) →
    (∀ j a, a ∈ opnds'.getD (opnds.length + j) [] → a < i + j) →
    i ≤ m + 1 →
    mF = m ∧ ops'.length = ops.length + (m + 1 - i) ∧
      opnds'.length = opnds.length + (m + 1 - i) := by
  intro fuel
  induction fuel with
  | zero =>
    intro s i m ops opnds op ops' opnds' op' mF rest hres hback hle
    rw [readGatesLoop] at hres
    by_cases hterm : m < i
    · rw [if_pos hterm] at hres
      simp only [Option.some.injEq, Prod.mk.injEq] at hres
      obtain ⟨⟨h1, h2, _, h4⟩, _⟩ := hres
      exact ⟨h4.symm, by rw [← h1]; omega, by rw [← h2]; omega⟩
    · rw [if_neg hterm] at hres
      exact Option.noConfusion hres
  | succ f ih =>
    intro s i m ops opnds op ops' opnds' op' mF rest hres hback hle
    rw [readGatesLoop] at hres
    by_cases hterm : m < i
    · rw [if_pos hterm] at hres
      simp only [Option.some.injEq, Prod.mk.injEq] at hres
      obtain ⟨⟨h1, h2, _, h4⟩, _⟩ := hres
      exact ⟨h4.symm, by rw [← h1]; omega, by rw [← h2]; omega⟩
    · rw [if_neg hterm] at hres
      cases hq : readStr s with
      | none =>
        rw [hq, optCase_none] at hres
        exact Option.noConfusion hres
      | some q =>
        rw [hq] at hres
        simp only [optCase_some] at hres
        cases hq1 : readNat q.2 with
        | none =>
          rw [hq1, optCase_none] at hres
          exact Option.noConfusion hres
        | some q1 =>
          rw [hq1] at hres
          simp only [optCase_some] at hres
          by_cases hnot : q.1 = "NOT"
          · rw [if_pos hnot] at hres
            obtain ⟨t, u, ht, hu⟩ := readGatesLoop_extends _ _ _ _ _ _ _ hres
            have hj0 : q1.1 < i := by
              have hmem : q1.1 ∈ opnds'.getD (opnds.length + 0) [] := by
                rw [hu, List.append_assoc, getD_append_right]
                simp
              simpa using hback 0 q1.1 hmem
            have hmax : max m q1.1 = m := by omega
            rw [hmax] at hres
            have hback' : ∀ j a,
                a ∈ opnds'.getD ((opnds ++ [[q1.1]]).length + j) [] →
                a < (i + 1) + j := by
              intro j a ha
              have hidx : (opnds ++ [[q1.1]]).length + j = opnds.length + (j + 1) := by
                simp
                omega
              rw [hidx] at ha
              have := hback (j + 1) a ha
              omega
            obtain ⟨hmF, hops, hopnds⟩ := ih _ _ _ _ _ _ hres hback' (by omega)
            refine ⟨hmF, ?_, ?_⟩
            · rw [hops]
              simp only [List.length_append, List.length_cons, List.length_nil]
              omega
            · rw [hopnds]
              simp only [List.length_append, List.length_cons, List.length_nil]
              omega
          · rw [if_neg hnot] at hres
            cases hq2 : readNat q1.2 with
            | none =>
              rw [hq2, optCase_none] at hres
              exact Option.noConfusion hres
            | some q2 =>
              rw [hq2] at hres
              simp only [optCase_some] at hres
              obtain ⟨t, u, ht, hu⟩ := readGatesLoop_extends _ _ _ _ _ _ _ hres
              have hmem0 : (opnds ++ [[q1.1, q2.1]] ++ u).getD (opnds.length + 0) []
                  = [q1.1, q2.1] := by
                rw [List.append_assoc, getD_append_right]
                simp
              have hj1 : q1.1 < i := by
                have hmem : q1.1 ∈ opnds'.getD (opnds.length + 0) [] := by
                  rw [hu, hmem0]
                  simp
                simpa using hback 0 q1.1 hmem
              have hj2 : q2.1 < i := by
                have hmem : q2.1 ∈ opnds'.getD (opnds.length + 0) [] := by
                  rw [hu, hmem0]
                  simp
                simpa using hback 0 q2.1 hmem
              have hmax : max (max m q1.1) q2.1 = m := by omega
              rw [hmax] at hres
              have hback' : ∀ j a,
                  a ∈ opnds'.getD ((opnds ++ [[q1.1, q2.1]]).length + j) [] →
                  a < (i + 1) + j := by
                intro j a ha
                have hidx : (opnds ++ [[q1.1, q2.1]]).length + j
                    = opnds.length + (j + 1) := by
                  simp
                  omega
                rw [hidx] at ha
                have := hback (j + 1) a ha
                omega
              obtain ⟨hmF, hops, hopnds⟩ := ih _ _ _ _ _ _ hres hback' (by omega)
              refine ⟨hmF, ?_, ?_⟩
              · rw [hops]
                simp only [List.length_append, List.length_cons, List.length_nil]
                omega
              · rw [hopnds]
                simp only [List.length_append, List.length_cons, List.length_nil]
                omega

/-! ### Claim theorems for `CircuitDB::read_db` -/

/-- Token stream of one database record whose truth-table vector appears in
the file in non-canonical (descending) order: 1 input, 2 outputs with
patterns 2 then 1, output ids 1 and 1, and the single gate `NOT 0`. -/
def exDbStream : List Tok :=
  [Tok.num 1, Tok.num 2, Tok.num 2, Tok.num 1, Tok.num 1, Tok.num 1,
   Tok.str "NOT", Tok.num 0]

/-- C2 counterexample: for the record of `exDbStream`, whose truth-table
vector reads `[2, 1]` in file order, the lookup map binds the file-order
vector `[2, 1]` and not its canonical ascending form `[1, 2]` — `read_db`
does not canonicalise the key. -/
theorem C2_counterexample :
    mapFind? (read_db exDbStream).subcircuit_pattern_to_index [2, 1] = some 0 ∧
    mapFind? (read_db exDbStream).subcircuit_pattern_to_index [1, 2] = none := by
  decide

/-- C2 amended: `read_db` inserts each record's vector of output
truth-table integers as the map key exactly as read, in file order, with no
canonicalisation; for a single-record stream the map binds precisely the
file-order vector and nothing else. -/
theorem C2_amended_key_is_file_order {stream s1 s2 s3 s4 s5 : List Tok}
    {inN outN : Nat} {pats : List Int} {outs : List Nat} {maxI : Nat}
    {r : List GateType × List (List Nat) × Nat × Nat}
    (ha : readNat stream = some (inN, s1))
    (hb : readNat s1 = some (outN, s2))
    (hc : readInts outN s2 = some (pats, s3))
    (hd : readNatsMax outN 0 s3 = some (outs, maxI, s4))
    (he : readGatesLoop s4.length s4 inN maxI [] [] 0 = some (r, s5))
    (hf : readNat s5 = none) :
    mapFind? (read_db stream).subcircuit_pattern_to_index pats = some 0 ∧
    ∀ k, k ≠ pats →
      mapFind? (read_db stream).subcircuit_pattern_to_index k = none := by
  have h1 : read_db stream = read_db_loop stream.length s5 1
      { subcircuit_pattern_to_index := mapAssign [] pats 0
        subcircuit_outputs := [outs]
        gates_operands := [r.2.1]
        OPER_number := [Int.ofNat r.2.2.1]
        gates_operations := [r.1] } := by
    rw [read_db, read_db_loop, ha]
    simp only [optCase_some]
    rw [hb]
    simp only [optCase_some]
    rw [hc]
    simp only [optCase_some]
    rw [hd]
    simp only [optCase_some]
    rw [he]
    simp only [optCase_some]
    simp
  rw [h1, read_db_loop_stop hf]
  constructor
  · simp [mapAssign, mapFind?]
  · intro k hk
    have hk' : ¬pats = k := fun h => hk h.symm
    simp [mapAssign, mapFind?, hk']

/-- Witness for the amended C2 at `exDbStream`: the hypotheses hold with
the record's file-order pattern vector `[2, 1]`. -/
theorem C2_amended_witness :
    mapFind? (read_db exDbStream).subcircuit_pattern_to_index [2, 1] = some 0 ∧
    ∀ k, k ≠ [2, 1] →
      mapFind? (read_db exDbStream).subcircuit_pattern_to_index k = none :=
  @C2_amended_key_is_file_order exDbStream
    [Tok.num 2, Tok.num 2, Tok.num 1, Tok.num 1, Tok.num 1,
      Tok.str "NOT", Tok.num 0]
    [Tok.num 2, Tok.num 1, Tok.num 1, Tok.num 1, Tok.str "NOT", Tok.num 0]
    [Tok.num 1, Tok.num 1, Tok.str "NOT", Tok.num 0]
    [Tok.str "NOT", Tok.num 0] [] 1 2 [2, 1] [1, 1] 1
    ([GateType.NOT], [[0]], 0, 1)
    (by decide) (by decide) (by decide) (by decide) (by decide) (by decide)

/-- Token stream of one database record whose first gate description
references the forward id 3: 1 input, 1 output with pattern 7 on gate id 1,
then gates `NOT 3`, `NOT 0`, `NOT 0`. -/
def exGrowStream : List Tok :=
  [Tok.num 1, Tok.num 1, Tok.num 7, Tok.num 1, Tok.str "NOT", Tok.num 3,
   Tok.str "NOT", Tok.num 0, Tok.str "NOT", Tok.num 0]

/-- C3 counterexample: for the record of `exGrowStream` the maximum output
gate id is 1 and `inputs_number` is 1, so the claim predicts
`1 - 1 + 1 = 1` parsed gate description; but the first gate's operand id 3
grows the running `max_index`, and `read_db` parses 3 gate descriptions. -/
theorem C3_counterexample :
    (read_db exGrowStream).subcircuit_outputs = [[1]] ∧
    ((read_db exGrowStream).gates_operands.getD 0 []).length = 3 ∧
    ¬((read_db exGrowStream).gates_operands.getD 0 []).length = 1 + 1 - 1 := by
  decide

/-- C3: for a database record parsed by `read_db`'s gate loop whose gate
descriptions reference only earlier ids (operands below the gate's own id,
the format's DAG ordering) and whose inputs do not outnumber the output
ids, the running `max_index` stays at the maximum output id and exactly
`max_output_id + 1 - inputs_number` gate descriptions are parsed. -/
theorem C3_record_gate_count {s3 s4 rest : List Tok} {outN inN fuel : Nat}
    {outs : List Nat} {maxI : Nat} {ops : List GateType}
    {opnds : List (List Nat)} {opn mF : Nat}
    (hd : readNatsMax outN 0 s3 = some (outs, maxI, s4))
    (he : readGatesLoop fuel s4 inN maxI [] [] 0 = some ((ops, opnds, opn, mF), rest))
    (hback : ∀ j, j < opnds.length → ∀ a ∈ opnds.getD j [], a < inN + j)
    (hle : inN ≤ maxI + 1) :
    maxI = outs.foldl max 0 ∧ mF = maxI ∧
    ops.length = maxI + 1 - inN ∧ opnds.length = maxI + 1 - inN := by
  have hmax := readNatsMax_foldl outN 0 s3 hd
  have hback' : ∀ j a, a ∈ opnds.getD (List.length ([] : List (List Nat)) + j) [] →
      a < inN + j := by
    intro j a ha
    simp only [List.length_nil, Nat.zero_add] at ha
    by_cases hj : j < opnds.length
    · exact hback j hj a ha
    · rw [List.getD_eq_getElem?_getD, List.getElem?_eq_none (by omega)] at ha
      simp at ha
  have hcount := readGatesLoop_count fuel s4 inN maxI [] [] 0 he hback' hle
  exact ⟨hmax, hcount.1, by simpa using hcount.2.1, by simpa using hcount.2.2⟩

/-- Witness for C3 at the record of `exDbStream`: 1 input, max output id 1,
one gate description parsed. -/
theorem C3_witness :
    (1 : Nat) = ([1, 1] : List Nat).foldl max 0 ∧ (1 : Nat) = 1 ∧
    ([GateType.NOT] : List GateType).length = 1 + 1 - 1 ∧
    ([[0]] : List (List Nat)).length = 1 + 1 - 1 :=
  @C3_record_gate_count [Tok.num 1, Tok.num 1, Tok.str "NOT", Tok.num 0]
    [Tok.str "NOT", Tok.num 0] [] 2 1 2 [1, 1] 1 [GateType.NOT] [[0]] 0 1
    (by decide) (by decide) (by decide) (by decide)

/-- C7: when two database records carry the same truth-table-vector key,
the loaded lookup map binds that key to the later record's index — the
second assignment overwrites the first. -/
theorem C7_duplicate_keys_overwrite
    {stream s1 s2 s3 s4 s5 s6 s7 s8 s9 s10 : List Tok}
    {inN outN inN2 outN2 : Nat} {pats pats2 : List Int}
    {outs outs2 : List Nat} {maxI maxI2 : Nat}
    {r r2 : List GateType × List (List Nat) × Nat × Nat}
    (ha : readNat stream = some (inN, s1))
    (hb : readNat s1 = some (outN, s2))
    (hc : readInts outN s2 = some (pats, s3))
    (hd : readNatsMax outN 0 s3 = some (outs, maxI, s4))
    (he : readGatesLoop s4.length s4 inN maxI [] [] 0 = some (r, s5))
    (ha2 : readNat s5 = some (inN2, s6))
    (hb2 : readNat s6 = some (outN2, s7))
    (hc2 : readInts outN2 s7 = some (pats2, s8))
    (hd2 : readNatsMax outN2 0 s8 = some (outs2, maxI2, s9))
    (he2 : readGatesLoop s9.length s9 inN2 maxI2 [] [] 0 = some (r2, s10))
    (heq : pats2 = pats)
    (hf : readNat s10 = none) :
    mapFind? (read_db stream).subcircuit_pattern_to_index pats = some 1 := by
  have hlen : stream.length = s1.length + 1 := readNat_length ha
  rw [read_db, read_db_loop, ha]
  simp only [optCase_some]
  rw [hb]
  simp only [optCase_some]
  rw [hc]
  simp only [optCase_some]
  rw [hd]
  simp only [optCase_some]
  rw [he]
  simp only [optCase_some]
  rw [hlen, read_db_loop, ha2]
  simp only [optCase_some]
  rw [hb2]
  simp only [optCase_some]
  rw [hc2]
  simp only [optCase_some]
  rw [hd2]
  simp only [optCase_some]
  rw [he2]
  simp only [optCase_some]
  rw [read_db_loop_stop hf, heq]
  exact mapFind_assign_self _ _ _

/-- Witness for C7: the two identical records of `exDbStream ++ exDbStream`
share the key `[2, 1]`, and the map binds it to index 1. -/
theorem C7_witness :
    mapFind? (read_db (exDbStream ++ exDbStream)).subcircuit_pattern_to_index
      [2, 1] = some 1 :=
  @C7_duplicate_keys_overwrite (exDbStream ++ exDbStream)
    ([Tok.num 2, Tok.num 2, Tok.num 1, Tok.num 1, Tok.num 1,
      Tok.str "NOT", Tok.num 0] ++ exDbStream)
    ([Tok.num 2, Tok.num 1, Tok.num 1, Tok.num 1, Tok.str "NOT",
      Tok.num 0] ++ exDbStream)
    ([Tok.num 1, Tok.num 1, Tok.str "NOT", Tok.num 0] ++ exDbStream)
    ([Tok.str "NOT", Tok.num 0] ++ exDbStream) exDbStream
    [Tok.num 2, Tok.num 2, Tok.num 1, Tok.num 1, Tok.num 1,
      Tok.str "NOT", Tok.num 0]
    [Tok.num 2, Tok.num 1, Tok.num 1, Tok.num 1, Tok.str "NOT", Tok.num 0]
    [Tok.num 1, Tok.num 1, Tok.str "NOT", Tok.num 0]
    [Tok.str "NOT", Tok.num 0] [] 1 2 1 2 [2, 1] [2, 1] [1, 1] [1, 1] 1 1
    ([GateType.NOT], [[0]], 0, 1) ([GateType.NOT], [[0]], 0, 1)
    (by decide) (by decide) (by decide) (by decide) (by decide) (by decide)
    (by decide) (by decide) (by decide) (by decide) (by decide) (by decide)

end Csat
